import Mathlib

/-!
# A fixed-schema row store: pages, slots and the row codec

Shallow embedding of `main.go`.

* Go `byte` is `UInt8`, Go `uint32` is `UInt32`; the arithmetic on them is done on
  `Nat` (`toNat`, `ofNat`), as `encoding/binary` does it with shifts and ors.
* Go `string` and `[]byte` are `List UInt8` (a Go string is a sequence of bytes).
* Go `int` is `Int`; `/` and `%` on `int` truncate toward zero (`Int.tdiv`, `Int.tmod`).
  The only `int` the program increments is `rowCount`, and only after `rowSlot` has
  returned a slot for it, which it does for `0 <= rowCount < TABLE_MAX_ROWS` alone, so
  the 64-bit width of `int` never comes into play.
* A run-time panic is `Except.error`; a nil pointer is `Option.none`.
* A Go slice aliases its backing array.  `rowSlot` returns the location of the view
  (page number, byte offset) together with the bytes it views; `executeInsert` stores
  the bytes written through the view back at that location.  Every slice in the
  program has `len = cap`, so one length stands for both.
-/

namespace SimpleDb

/-! ## Constants (`main.go`, lines 23-39) -/

def ID_SIZE : Nat := 4
def USERNAME_SIZE : Nat := 32
def EMAIL_SIZE : Nat := 255
def ROW_SIZE : Nat := ID_SIZE + USERNAME_SIZE + EMAIL_SIZE

def ID_OFFSET : Nat := 0
def USERNAME_OFFSET : Nat := ID_SIZE + ID_OFFSET
def EMAIL_OFFSET : Nat := USERNAME_OFFSET + USERNAME_SIZE

def PAGE_SIZE : Nat := 4096
def ROWS_PER_PAGE : Nat := PAGE_SIZE / ROW_SIZE

def TABLE_MAX_PAGES : Nat := 100
def TABLE_MAX_ROWS : Nat := ROWS_PER_PAGE * TABLE_MAX_PAGES

/-! ## Data model -/

/-- Go `type Row struct { id uint32; username string; email string }`. -/
structure Row where
  id : UInt32
  username : List UInt8
  email : List UInt8
deriving DecidableEq

/-- Go `type Table struct { rowCount int; pages [][]byte }`. -/
structure Table where
  rowCount : Int
  pages : List (List UInt8)
deriving DecidableEq

/-- The run-time panics the program can raise. -/
inductive Panic where
  | nilDereference
  | indexOutOfRange
  | sliceOutOfRange
deriving DecidableEq

/-- The value behind the `*[]byte` that `rowSlot` returns: the slice `page[byteOffset:]`
of page `pageNum`, given by where it starts and by the bytes it views. -/
structure Slot where
  pageNum : Nat
  byteOffset : Nat
  bytes : List UInt8
deriving DecidableEq

/-! ## Slices, `copy` and `encoding/binary` -/

/-- Go `b[lo:hi]`: panics unless `lo <= hi <= cap(b)`. -/
def slice (b : List UInt8) (lo hi : Nat) : Except Panic (List UInt8) :=
  if lo ≤ hi ∧ hi ≤ b.length then .ok ((b.take hi).drop lo) else .error .sliceOutOfRange

/-- Contents of `dst` after Go `copy(dst, src)`: the first `min(len(dst), len(src))`
bytes are overwritten, the rest of `dst` is kept. -/
def copy (dst src : List UInt8) : List UInt8 :=
  src.take dst.length ++ dst.drop src.length

/-- Contents of `b` after a write of `data` through the sub-slice `b[off : off+len(data)]`. -/
def writeAt (b : List UInt8) (off : Nat) (data : List UInt8) : List UInt8 :=
  b.take off ++ data ++ b.drop (off + data.length)

/-- Contents of `b` after `binary.LittleEndian.PutUint32(b, v)`:
`b[0] = byte(v); b[1] = byte(v >> 8); b[2] = byte(v >> 16); b[3] = byte(v >> 24)`. -/
def putUint32 (b : List UInt8) (v : UInt32) : Except Panic (List UInt8) :=
  if b.length < 4 then .error .indexOutOfRange
  else .ok ([UInt8.ofNat v.toNat, UInt8.ofNat (v.toNat >>> 8), UInt8.ofNat (v.toNat >>> 16),
    UInt8.ofNat (v.toNat >>> 24)] ++ b.drop 4)

/-- Go `binary.LittleEndian.Uint32(b)`:
`uint32(b[0]) | uint32(b[1])<<8 | uint32(b[2])<<16 | uint32(b[3])<<24`. -/
def uint32 (b : List UInt8) : Except Panic UInt32 :=
  match b with
  | b0 :: b1 :: b2 :: b3 :: _ =>
    .ok (UInt32.ofNat
      (b0.toNat ||| (b1.toNat <<< 8) ||| (b2.toNat <<< 16) ||| (b3.toNat <<< 24)))
  | _ => .error .indexOutOfRange

/-! ## The program -/

/-- Go `func (t *Table) rowSlot(rowNum int) *[]byte`. -/
def rowSlot (t : Table) (rowNum : Int) : Except Panic (Option Slot) :=
  let pageNum := Int.tdiv rowNum ROWS_PER_PAGE
  if rowNum ≥ TABLE_MAX_ROWS then .ok none
  else if pageNum < 0 then .error .indexOutOfRange
  else
    match t.pages[pageNum.toNat]? with
    | none => .error .indexOutOfRange
    | some page =>
      let rowOffset := Int.tmod rowNum ROWS_PER_PAGE
      let byteOffset := rowOffset * ROW_SIZE
      if byteOffset < 0 ∨ byteOffset > page.length then .error .sliceOutOfRange
      else .ok (some ⟨pageNum.toNat, byteOffset.toNat, page.drop byteOffset.toNat⟩)

/-- Go `func serializeRow(row Row, pages *[]byte)`; the result is the content of
`*pages` afterwards. -/
def serializeRow (row : Row) (pages : Option (List UInt8)) : Except Panic (List UInt8) :=
  match pages with
  | none => .error .nilDereference
  | some buf => do
    let idDst ← slice buf ID_OFFSET (ID_OFFSET + ID_SIZE)
    let idNew ← putUint32 idDst row.id
    let buf1 := writeAt buf ID_OFFSET idNew
    let userDst ← slice buf1 USERNAME_OFFSET (USERNAME_OFFSET + USERNAME_SIZE)
    let buf2 := writeAt buf1 USERNAME_OFFSET (copy userDst row.username)
    let emailDst ← slice buf2 EMAIL_OFFSET (EMAIL_OFFSET + EMAIL_SIZE)
    pure (writeAt buf2 EMAIL_OFFSET (copy emailDst row.email))

/-- Go `func deserializeRow(pages *[]byte) (row Row)`. -/
def deserializeRow (pages : Option (List UInt8)) : Except Panic Row :=
  match pages with
  | none => .error .nilDereference
  | some buf => do
    let idSrc ← slice buf ID_OFFSET (ID_OFFSET + ID_SIZE)
    let id ← uint32 idSrc
    let username ← slice buf USERNAME_OFFSET (USERNAME_OFFSET + USERNAME_SIZE)
    let email ← slice buf EMAIL_OFFSET (EMAIL_OFFSET + EMAIL_SIZE)
    pure { id := id, username := username, email := email }

/-- Go `func dbOpen(fileName string) (*Table, error)`: the file name is not used and the
error is always nil. -/
def dbOpen (_fileName : String) : Except String Table :=
  .ok { rowCount := 0
        pages := List.replicate TABLE_MAX_ROWS (List.replicate PAGE_SIZE 0) }

/-- The pages after the bytes `written` through the view `slot` are in place. -/
def storeSlot (pages : List (List UInt8)) (slot : Option Slot) (written : List UInt8) :
    List (List UInt8) :=
  match slot with
  | none => pages
  | some s =>
    match pages[s.pageNum]? with
    | none => pages
    | some page => pages.set s.pageNum (page.take s.byteOffset ++ written)

/-- Go `func executeInsert(input string, table *Table)`.  `sscanf input` stands for
`fmt.Sscanf(input, "insert %d %s %s", &row.id, &row.username, &row.email)`: `none` when
it returns an error (the function prints a message and returns), the scanned row
otherwise. -/
def executeInsert (sscanf : String → Option Row) (input : String) (table : Table) :
    Except Panic Table :=
  match sscanf input with
  | none => .ok table
  | some row => do
    let slot ← rowSlot table table.rowCount
    let written ← serializeRow row (slot.map Slot.bytes)
    pure { rowCount := table.rowCount + 1, pages := storeSlot table.pages slot written }

/-- Go `func executeSelect(table *Table)`: the result is the list of the `(i, row)` it
prints, in the order it prints them; the table is not written. -/
def executeSelect (table : Table) : Except Panic (List (Nat × Row)) :=
  (List.range table.rowCount.toNat).mapM fun (i : Nat) => do
    let slot ← rowSlot table (Int.ofNat i)
    let row ← deserializeRow (slot.map Slot.bytes)
    pure (i, row)

/-- The table states the program can be in: the one `dbOpen` returns, and those that a
call of `executeInsert` or `executeSelect` that returns leads to. -/
inductive Reachable : Table → Prop where
  | opened (fileName : String) (t : Table) : dbOpen fileName = .ok t → Reachable t
  | inserted (sscanf : String → Option Row) (input : String) (t t' : Table) :
      Reachable t → executeInsert sscanf input t = .ok t' → Reachable t'
  | selected (t : Table) (out : List (Nat × Row)) :
      Reachable t → executeSelect t = .ok out → Reachable t

/-- The calls of `executeInsert` the loop of `main` makes for the lines `inputs`, in order. -/
def insertAll (sscanf : String → Option Row) (inputs : List String) (table : Table) :
    Except Panic Table :=
  inputs.foldlM (fun t input => executeInsert sscanf input t) table

/-- A row as it reads back from a slot that was zero before it was written: each text
field is followed by zero bytes up to the width of the field. -/
def padded (r : Row) : Row :=
  { id := r.id
    username := r.username ++ List.replicate (USERNAME_SIZE - r.username.length) 0
    email := r.email ++ List.replicate (EMAIL_SIZE - r.email.length) 0 }

/-! ## Definitions used to state and prove the properties -/

/-- The four bytes `PutUint32` writes. -/
def le32 (v : UInt32) : List UInt8 :=
  [UInt8.ofNat v.toNat, UInt8.ofNat (v.toNat >>> 8), UInt8.ofNat (v.toNat >>> 16),
    UInt8.ofNat (v.toNat >>> 24)]

/-- Shape of the page store `dbOpen` builds: `TABLE_MAX_ROWS` pages of `PAGE_SIZE` bytes. -/
def WellFormed (t : Table) : Prop :=
  t.pages.length = TABLE_MAX_ROWS ∧ ∀ p ∈ t.pages, p.length = PAGE_SIZE

/-- The page that holds row `k`. -/
def pageOf (t : Table) (k : Nat) : List UInt8 :=
  t.pages.getD (k / ROWS_PER_PAGE) []

/-- The `ROW_SIZE` bytes of the slot of row `k`. -/
def window (t : Table) (k : Nat) : List UInt8 :=
  ((pageOf t k).drop (k % ROWS_PER_PAGE * ROW_SIZE)).take ROW_SIZE

/-- The `ROW_SIZE` bytes of a slot after `serializeRow` has written `r` over the bytes
`old`: the four bytes of the id, then each text copied over the old bytes of its
field. -/
def encodeOver (r : Row) (old : List UInt8) : List UInt8 :=
  le32 r.id ++ copy ((old.drop 4).take 32) r.username ++
    copy ((old.drop 36).take 255) r.email

/-- The row `deserializeRow` reads from the `ROW_SIZE` bytes `w`. -/
def decode (w : List UInt8) : Except Panic Row :=
  (uint32 (w.take 4)).map fun id =>
    { id := id, username := (w.drop 4).take 32, email := (w.drop 36).take 255 }

/-- The list `l` with the bytes `enc` written at offset `off`. -/
def splice (l : List UInt8) (off : Nat) (enc : List UInt8) : List UInt8 :=
  l.take off ++ enc ++ l.drop (off + enc.length)

/-- The table after `executeInsert` has stored the row `r`. -/
def afterInsert (t : Table) (r : Row) : Table :=
  { rowCount := t.rowCount + 1
    pages := t.pages.set (t.rowCount.toNat / ROWS_PER_PAGE)
      (splice (pageOf t t.rowCount.toNat) (t.rowCount.toNat % ROWS_PER_PAGE * ROW_SIZE)
        (encodeOver r (window t t.rowCount.toNat))) }

/-- The table `dbOpen` builds. -/
def freshTable : Table :=
  { rowCount := 0
    pages := List.replicate TABLE_MAX_ROWS (List.replicate PAGE_SIZE 0) }

/-- Every slot from `rowCount` on is zero. -/
def ZeroTail (t : Table) : Prop :=
  ∀ k, t.rowCount.toNat ≤ k → k < TABLE_MAX_ROWS → window t k = List.replicate ROW_SIZE 0

/-- Two rows used in the examples. -/
def alice : Row := { id := 1, username := [97, 108, 105, 99, 101], email := [97, 64, 120] }

/-- Stands for `fmt.Sscanf` on the two lines of the examples. -/
def scanDemo (input : String) : Option Row :=
  if input = "insert 1 alice a@x" then some alice
  else if input = "insert 7 b c" then some { id := 7, username := [98], email := [99] }
  else none

/-- The byte at offset `o` of page `p` of the table, if there is one. -/
def byteAt (t : Table) (p o : Nat) : Option UInt8 :=
  match t.pages[p]? with
  | none => none
  | some page => page[o]?

/-- What `executeSelect` reads for row `k`: `deserializeRow(table.rowSlot(k))`. -/
def readRow (t : Table) (k : Int) : Except Panic Row := do
  let slot ← rowSlot t k
  deserializeRow (slot.map Slot.bytes)

/-- The row in the bytes `w` of a slot; the default row when `w` is too short to hold
an id. -/
def rowOf (w : List UInt8) : Row :=
  match decode w with
  | .ok r => r
  | .error _ => { id := 0, username := [], email := [] }

/-- The `ROW_SIZE` bytes of a row written into a zero-filled slot: the id, the first 32
bytes of the username followed by zero bytes up to 32, the first 255 bytes of the email
followed by zero bytes up to 255. -/
def encodeZero (r : Row) : List UInt8 :=
  le32 r.id ++ (r.username.take 32 ++ List.replicate (32 - r.username.length) 0) ++
    (r.email.take 255 ++ List.replicate (255 - r.email.length) 0)

/-- The state of a run of `executeSelect`: the table, the loop variable `i` and the rows
printed so far. -/
structure SelectState where
  table : Table
  i : Int
  out : List (Nat × Row)

/-- One turn of `for i := 0; i < table.rowCount; i++ { ... }` in `executeSelect`, on the
state as it is at that turn: `none` when the loop test fails, the state after the body
and `i++` otherwise.  The test reads `rowCount` from the table of the state, and
`rowSlot` is called on that table. -/
def selectTurn (s : SelectState) : Except Panic (Option SelectState) :=
  if s.i < s.table.rowCount then do
    let slot ← rowSlot s.table s.i
    let row ← deserializeRow (slot.map Slot.bytes)
    pure (some { table := s.table, i := s.i + 1, out := s.out ++ [(s.i.toNat, row)] })
  else pure none

/-- The loop of `executeSelect` run for at most `fuel` turns: the state in which the loop
test fails, or `none` when the fuel is used up before that. -/
def selectLoop : Nat → SelectState → Except Panic (Option SelectState)
  | 0, _ => .ok none
  | fuel + 1, s => do
    match ← selectTurn s with
    | none => pure (some s)
    | some s' => selectLoop fuel s'

/-- Go `func executeSelect(table *Table)` as a step on the state of the program: the
table the call leaves behind and the rows it prints, or `none` when the loop has not
ended within `fuel` turns. -/
def executeSelectState (fuel : Nat) (table : Table) :
    Except Panic (Option (Table × List (Nat × Row))) :=
  (selectLoop fuel { table := table, i := 0, out := [] }).map
    (Option.map fun s => (s.table, s.out))

/-- The table states the program can be in, each with the rows the calls of
`executeInsert` have stored on the way to it, in the order they were stored. -/
inductive History : List Row → Table → Prop where
  | opened (fileName : String) (t : Table) : dbOpen fileName = .ok t → History [] t
  | inserted (sscanf : String → Option Row) (input : String) (r : Row) (rows : List Row)
      (t t' : Table) : History rows t → sscanf input = some r →
      executeInsert sscanf input t = .ok t' → History (rows ++ [r]) t'
  | refused (sscanf : String → Option Row) (input : String) (rows : List Row)
      (t t' : Table) : History rows t → sscanf input = none →
      executeInsert sscanf input t = .ok t' → History rows t'
  | selected (rows : List Row) (t : Table) (out : List (Nat × Row)) :
      History rows t → executeSelect t = .ok out → History rows t

/-- A second row used in the examples. -/
def bob : Row := { id := 7, username := [98], email := [99] }

/-- The table after the rows `bob` and `alice` have been stored in the table `dbOpen`
builds. -/
def demoTable : Table := afterInsert (afterInsert freshTable bob) alice

/-! ## Constants, evaluated -/

theorem ROW_SIZE_eq : ROW_SIZE = 291 := rfl
theorem ROWS_PER_PAGE_eq : ROWS_PER_PAGE = 14 := rfl
theorem TABLE_MAX_ROWS_eq : TABLE_MAX_ROWS = 1400 := rfl
theorem PAGE_SIZE_eq : PAGE_SIZE = 4096 := rfl

/-! ## Slices of a buffer cut in three -/

theorem slice_mid (p m s : List UInt8) (lo hi : Nat) (hp : p.length = lo)
    (hm : lo + m.length = hi) : slice (p ++ m ++ s) lo hi = .ok m := by
  subst hp hm
  have h1 : p.length ≤ p.length + m.length ∧
      p.length + m.length ≤ (p ++ m ++ s).length := by
    simp only [List.length_append]; omega
  have h2 : List.take (p.length + m.length) (p ++ m ++ s) = p ++ m := by
    rw [← List.length_append]; exact List.take_left' rfl
  simp only [slice, h1, and_self, if_true, h2, List.drop_left]

theorem writeAt_mid (p m s data : List UInt8) (lo : Nat) (hp : p.length = lo)
    (hd : data.length = m.length) : writeAt (p ++ m ++ s) lo data = p ++ data ++ s := by
  subst hp
  have h1 : List.take p.length (p ++ m ++ s) = p := by
    rw [List.append_assoc]; exact List.take_left' rfl
  have h2 : List.drop (p.length + data.length) (p ++ m ++ s) = s := by
    rw [hd, ← List.length_append]; exact List.drop_left' rfl
  simp only [writeAt, h1, h2]

theorem length_copy (dst src : List UInt8) : (copy dst src).length = dst.length := by
  simp only [copy, List.length_append, List.length_take, List.length_drop]
  omega

/-! ## Little-endian bytes of a `uint32` -/

theorem length_le32 (v : UInt32) : (le32 v).length = 4 := rfl

theorem toNat_ofNat8 (n : Nat) : (UInt8.ofNat n).toNat = n % 2 ^ 8 := by
  simp [UInt8.toNat, UInt8.ofNat]

theorem or_shift (a b k : Nat) (h : a < 2 ^ k) : a ||| b <<< k = a + b * 2 ^ k := by
  rw [Nat.shiftLeft_eq, Nat.or_comm, Nat.mul_comm, ← Nat.mul_add_lt_is_or h, Nat.add_comm]

theorem or_bytes (n : Nat) (h : n < 2 ^ 32) :
    (n % 2 ^ 8) ||| ((n >>> 8 % 2 ^ 8) <<< 8) ||| ((n >>> 16 % 2 ^ 8) <<< 16)
      ||| ((n >>> 24 % 2 ^ 8) <<< 24) = n := by
  simp only [Nat.shiftRight_eq_div_pow]
  rw [or_shift _ _ 8 (Nat.mod_lt _ (by decide)), or_shift _ _ 16 (by omega),
    or_shift _ _ 24 (by omega)]
  omega

theorem uint32_le32 (v : UInt32) (s : List UInt8) : uint32 (le32 v ++ s) = .ok v := by
  have hv : v.toNat < 2 ^ 32 := v.toNat_lt_size
  simp only [le32, uint32, List.cons_append, List.nil_append, toNat_ofNat8]
  rw [or_bytes _ hv]
  congr 1
  apply UInt32.toNat.inj
  simp [UInt32.toNat, UInt32.ofNat]

theorem putUint32_four (a : List UInt8) (v : UInt32) (ha : a.length = 4) :
    putUint32 a v = .ok (le32 v) := by
  have h : ¬ a.length < 4 := by omega
  have hd : a.drop 4 = [] := List.drop_of_length_le (by omega)
  simp only [putUint32, h, if_false, hd, List.append_nil, le32]

/-! ## The codec on a buffer cut into its fields -/

theorem serializeRow_parts (r : Row) (a b c d : List UInt8) (ha : a.length = 4)
    (hb : b.length = 32) (hc : c.length = 255) :
    serializeRow r (some (a ++ b ++ c ++ d))
      = .ok (le32 r.id ++ copy b r.username ++ copy c r.email ++ d) := by
  have e0 : a ++ b ++ c ++ d = [] ++ a ++ (b ++ c ++ d) := by simp
  have s1 : slice (a ++ b ++ c ++ d) ID_OFFSET (ID_OFFSET + ID_SIZE) = .ok a := by
    rw [e0]; exact slice_mid [] a _ _ _ rfl (by simp [ID_OFFSET, ID_SIZE, ha])
  have w1 : writeAt (a ++ b ++ c ++ d) ID_OFFSET (le32 r.id)
      = le32 r.id ++ b ++ (c ++ d) := by
    rw [e0]
    exact (writeAt_mid [] a _ (le32 r.id) ID_OFFSET rfl (by simp [ha, length_le32])).trans
      (by simp)
  have s2 : slice (le32 r.id ++ b ++ (c ++ d)) USERNAME_OFFSET
      (USERNAME_OFFSET + USERNAME_SIZE) = .ok b :=
    slice_mid _ b _ _ _ rfl (by simp [USERNAME_OFFSET, USERNAME_SIZE, ID_SIZE, ID_OFFSET, hb])
  have w2 : writeAt (le32 r.id ++ b ++ (c ++ d)) USERNAME_OFFSET (copy b r.username)
      = le32 r.id ++ copy b r.username ++ (c ++ d) :=
    writeAt_mid _ b _ _ _ rfl (length_copy _ _)
  have e2 : le32 r.id ++ copy b r.username ++ (c ++ d)
      = le32 r.id ++ copy b r.username ++ c ++ d := by simp
  have s3 : slice (le32 r.id ++ copy b r.username ++ c ++ d) EMAIL_OFFSET
      (EMAIL_OFFSET + EMAIL_SIZE) = .ok c :=
    slice_mid _ c _ _ _ (by simp [length_copy, hb, length_le32, EMAIL_OFFSET, USERNAME_OFFSET,
      USERNAME_SIZE, ID_SIZE, ID_OFFSET]) (by simp [hc, EMAIL_SIZE])
  have w3 : writeAt (le32 r.id ++ copy b r.username ++ c ++ d) EMAIL_OFFSET
      (copy c r.email) = le32 r.id ++ copy b r.username ++ copy c r.email ++ d :=
    writeAt_mid _ c _ _ _ (by simp [length_copy, hb, length_le32, EMAIL_OFFSET,
      USERNAME_OFFSET, USERNAME_SIZE, ID_SIZE, ID_OFFSET]) (length_copy _ _)
  simp only [serializeRow, s1, putUint32_four a r.id ha, bind, Except.bind, w1, s2, w2, e2,
    s3, w3, pure, Except.pure]

theorem deserializeRow_parts (a b c d : List UInt8) (ha : a.length = 4)
    (hb : b.length = 32) (hc : c.length = 255) :
    deserializeRow (some (a ++ b ++ c ++ d))
      = (uint32 a).map fun id => { id := id, username := b, email := c } := by
  have e0 : a ++ b ++ c ++ d = [] ++ a ++ (b ++ c ++ d) := by simp
  have e1 : a ++ b ++ c ++ d = a ++ b ++ (c ++ d) := by simp
  have s1 : slice (a ++ b ++ c ++ d) ID_OFFSET (ID_OFFSET + ID_SIZE) = .ok a := by
    rw [e0]; exact slice_mid [] a _ _ _ rfl (by simp [ID_OFFSET, ID_SIZE, ha])
  have s2 : slice (a ++ b ++ c ++ d) USERNAME_OFFSET (USERNAME_OFFSET + USERNAME_SIZE)
      = .ok b := by
    rw [e1]; exact slice_mid _ b _ _ _ (by simp [ha, USERNAME_OFFSET, ID_SIZE, ID_OFFSET])
      (by simp [USERNAME_OFFSET, USERNAME_SIZE, ID_SIZE, ID_OFFSET, hb])
  have s3 : slice (a ++ b ++ c ++ d) EMAIL_OFFSET (EMAIL_OFFSET + EMAIL_SIZE) = .ok c :=
    slice_mid _ c _ _ _ (by simp [ha, hb, EMAIL_OFFSET, USERNAME_OFFSET, USERNAME_SIZE,
      ID_SIZE, ID_OFFSET]) (by simp [hc, EMAIL_SIZE])
  simp only [deserializeRow, s1, s2, s3, bind, Except.bind, pure, Except.pure]
  cases uint32 a <;> rfl

/-! ## Overwriting a stretch of a list -/

theorem splice_before {α : Type} (l enc rest : List α) (off o n : Nat) (h : o + n ≤ off)
    (hoff : off ≤ l.length) :
    ((l.take off ++ enc ++ rest).drop o).take n = (l.drop o).take n := by
  rw [List.take_drop, List.take_drop]
  congr 1
  rw [List.append_assoc, List.take_append_of_le_length (by simp; omega), List.take_take]
  congr 1
  omega

theorem splice_after {α : Type} (l enc : List α) (off o n : Nat) (h : off + enc.length ≤ o)
    (hoff : off ≤ l.length) :
    ((l.take off ++ enc ++ l.drop (off + enc.length)).drop o).take n = (l.drop o).take n := by
  congr 1
  have hl : (l.take off ++ enc).length = off + enc.length := by simp; omega
  have ho : o = (l.take off ++ enc).length + (o - (off + enc.length)) := by omega
  rw [ho, List.drop_append, List.drop_drop, hl]

theorem splice_at {α : Type} (l enc rest : List α) (off : Nat) (hoff : off ≤ l.length) :
    ((l.take off ++ enc ++ rest).drop off).take enc.length = enc := by
  have hl : (l.take off).length = off := by simp; omega
  rw [List.append_assoc, List.drop_left' hl]
  exact List.take_left' rfl

/-! ## The page store -/

theorem pageOf_get (t : Table) (k : Nat) (hw : WellFormed t) (hk : k < TABLE_MAX_ROWS) :
    t.pages[k / ROWS_PER_PAGE]? = some (pageOf t k) ∧ (pageOf t k).length = PAGE_SIZE := by
  have hlt : k / ROWS_PER_PAGE < t.pages.length := by
    rw [hw.1]; exact lt_of_le_of_lt (Nat.div_le_self _ _) hk
  have hg : t.pages[k / ROWS_PER_PAGE]? = some (t.pages[k / ROWS_PER_PAGE]) :=
    List.getElem?_eq_getElem hlt
  have hp : pageOf t k = t.pages[k / ROWS_PER_PAGE] := by
    simp only [pageOf, List.getD_eq_getElem?_getD, hg, Option.getD_some]
  refine ⟨by rw [hp]; exact hg, ?_⟩
  rw [hp]
  exact hw.2 _ (List.getElem_mem _)

theorem rowSlot_nat (t : Table) (k : Nat) (hw : WellFormed t) (hk : k < TABLE_MAX_ROWS) :
    rowSlot t (Int.ofNat k) = .ok (some
      { pageNum := k / ROWS_PER_PAGE
        byteOffset := k % ROWS_PER_PAGE * ROW_SIZE
        bytes := (pageOf t k).drop (k % ROWS_PER_PAGE * ROW_SIZE) }) := by
  obtain ⟨hg, hlen⟩ := pageOf_get t k hw hk
  have h1 : ¬ (Int.ofNat k ≥ ((TABLE_MAX_ROWS : Nat) : Int)) := by
    simp only [Int.ofNat_eq_coe]; omega
  have hd : Int.tdiv (Int.ofNat k) ((ROWS_PER_PAGE : Nat) : Int)
      = ((k / ROWS_PER_PAGE : Nat) : Int) := by
    rw [Int.ofNat_eq_coe, Int.tdiv_eq_ediv (by omega) (by omega)]; norm_cast
  have hm : Int.tmod (Int.ofNat k) ((ROWS_PER_PAGE : Nat) : Int)
      = ((k % ROWS_PER_PAGE : Nat) : Int) := by
    rw [Int.ofNat_eq_coe, Int.tmod_eq_emod (by omega) (by omega)]; norm_cast
  have h2 : ¬ (((k / ROWS_PER_PAGE : Nat) : Int) < 0) := not_lt.mpr (Int.ofNat_nonneg _)
  have hlt : k % ROWS_PER_PAGE < 14 := Nat.mod_lt _ (by decide)
  have hmul : ((k % ROWS_PER_PAGE : Nat) : Int) * ((ROW_SIZE : Nat) : Int)
      = ((k % ROWS_PER_PAGE * ROW_SIZE : Nat) : Int) := by norm_cast
  have h3 : ¬ (((k % ROWS_PER_PAGE * ROW_SIZE : Nat) : Int) < 0 ∨
      ((k % ROWS_PER_PAGE * ROW_SIZE : Nat) : Int) > (((pageOf t k).length : Nat) : Int)) := by
    rw [hlen, PAGE_SIZE_eq, ROW_SIZE_eq]; omega
  simp only [rowSlot, h1, if_false, hd, h2, Int.toNat_ofNat, hg, hm, hmul, h3]

/-! ## The codec on a view of at least `ROW_SIZE` bytes -/

theorem cut_fields (v : List UInt8) (h : ROW_SIZE ≤ v.length) :
    v = v.take 4 ++ (v.drop 4).take 32 ++ (v.drop 36).take 255 ++ v.drop ROW_SIZE ∧
    v.take ROW_SIZE = v.take 4 ++ (v.drop 4).take 32 ++ (v.drop 36).take 255 ∧
    (v.take 4).length = 4 ∧ ((v.drop 4).take 32).length = 32 ∧
    ((v.drop 36).take 255).length = 255 := by
  rw [ROW_SIZE_eq] at h ⊢
  have e1 : v.take 4 ++ (v.drop 4).take 32 = v.take 36 := by
    have key := List.take_append_drop 4 (v.take 36)
    rw [List.take_take] at key
    rw [List.take_drop]
    exact key
  have e2 : v.take 36 ++ (v.drop 36).take 255 = v.take 291 := by
    have key := List.take_append_drop 36 (v.take 291)
    rw [List.take_take] at key
    rw [List.take_drop]
    exact key
  refine ⟨?_, ?_, ?_, ?_, ?_⟩
  · rw [e1, e2, List.take_append_drop]
  · rw [e1, e2]
  · simp only [List.length_take]; omega
  · simp only [List.length_take, List.length_drop]; omega
  · simp only [List.length_take, List.length_drop]; omega

theorem length_encodeOver (r : Row) (old : List UInt8) (h : ROW_SIZE ≤ old.length) :
    (encodeOver r old).length = ROW_SIZE := by
  rw [ROW_SIZE_eq] at h ⊢
  simp only [encodeOver, List.length_append, length_copy, length_le32, List.length_take,
    List.length_drop]
  omega

theorem encodeOver_take (r : Row) (v : List UInt8) :
    encodeOver r (v.take ROW_SIZE) = encodeOver r v := by
  rw [ROW_SIZE_eq]
  have e1 : ((v.take 291).drop 4).take 32 = (v.drop 4).take 32 := by
    rw [List.drop_take, List.take_take]; rfl
  have e2 : ((v.take 291).drop 36).take 255 = (v.drop 36).take 255 := by
    rw [List.drop_take, List.take_take]; rfl
  simp only [encodeOver, e1, e2]

theorem serializeRow_view (r : Row) (v : List UInt8) (h : ROW_SIZE ≤ v.length) :
    serializeRow r (some v) = .ok (encodeOver r v ++ v.drop ROW_SIZE) := by
  obtain ⟨hv, -, ha, hb, hc⟩ := cut_fields v h
  have key := serializeRow_parts r _ _ _ (v.drop ROW_SIZE) ha hb hc
  rw [← hv] at key
  exact key

theorem deserializeRow_view (v : List UInt8) (h : ROW_SIZE ≤ v.length) :
    deserializeRow (some v) = decode v := by
  obtain ⟨hv, -, ha, hb, hc⟩ := cut_fields v h
  have key := deserializeRow_parts _ _ _ (v.drop ROW_SIZE) ha hb hc
  rw [← hv] at key
  exact key

theorem decode_take (v : List UInt8) : decode (v.take ROW_SIZE) = decode v := by
  rw [ROW_SIZE_eq]
  have e0 : (v.take 291).take 4 = v.take 4 := by rw [List.take_take]; rfl
  have e1 : ((v.take 291).drop 4).take 32 = (v.drop 4).take 32 := by
    rw [List.drop_take, List.take_take]; rfl
  have e2 : ((v.take 291).drop 36).take 255 = (v.drop 36).take 255 := by
    rw [List.drop_take, List.take_take]; rfl
  simp only [decode, e0, e1, e2]

theorem decode_encodeOver (r : Row) (old : List UInt8) (h : ROW_SIZE ≤ old.length) :
    decode (encodeOver r old) = .ok
      { id := r.id
        username := copy ((old.drop 4).take 32) r.username
        email := copy ((old.drop 36).take 255) r.email } := by
  rw [ROW_SIZE_eq] at h
  have hb : (copy ((old.drop 4).take 32) r.username).length = 32 := by
    simp only [length_copy, List.length_take, List.length_drop]; omega
  have hc : (copy ((old.drop 36).take 255) r.email).length = 255 := by
    simp only [length_copy, List.length_take, List.length_drop]; omega
  have key := deserializeRow_parts (le32 r.id) _ _ [] (length_le32 r.id) hb hc
  have hl : ROW_SIZE ≤ (encodeOver r old).length := by
    rw [length_encodeOver r old (by rw [ROW_SIZE_eq]; exact h)]
  rw [← deserializeRow_view _ hl]
  rw [List.append_nil] at key
  have hu := uint32_le32 r.id []
  rw [List.append_nil] at hu
  rw [encodeOver, key, hu]
  rfl

theorem copy_zeros (n : Nat) (src : List UInt8) (h : src.length ≤ n) :
    copy (List.replicate n 0) src = src ++ List.replicate (n - src.length) 0 := by
  simp only [copy, List.length_replicate, List.take_of_length_le h, List.drop_replicate]

theorem zeros_field (n off w : Nat) (h : off + w ≤ n) :
    ((List.replicate n (0 : UInt8)).drop off).take w = List.replicate w 0 := by
  rw [List.drop_replicate, List.take_replicate]
  congr 1
  omega

/-! ## One insert -/

theorem offset_bound (k : Nat) : k % ROWS_PER_PAGE * ROW_SIZE + ROW_SIZE ≤ PAGE_SIZE := by
  have hlt : k % ROWS_PER_PAGE < 14 := Nat.mod_lt _ (by decide)
  rw [ROW_SIZE_eq, PAGE_SIZE_eq]
  omega

theorem length_window (t : Table) (k : Nat) (hw : WellFormed t) (hk : k < TABLE_MAX_ROWS) :
    (window t k).length = ROW_SIZE := by
  have hlen := (pageOf_get t k hw hk).2
  have hb := offset_bound k
  simp only [window, List.length_take, List.length_drop, hlen]
  omega

theorem executeInsert_nil (sscanf : String → Option Row) (input : String) (t : Table)
    (r : Row) (hp : sscanf input = some r) (hfull : (TABLE_MAX_ROWS : Int) ≤ t.rowCount) :
    executeInsert sscanf input t = .error .nilDereference := by
  have h1 : t.rowCount ≥ ((TABLE_MAX_ROWS : Nat) : Int) := hfull
  simp only [executeInsert, hp, rowSlot, h1, if_true, bind, Except.bind, Option.map_none',
    serializeRow]

theorem executeInsert_ok (sscanf : String → Option Row) (input : String) (t : Table)
    (r : Row) (hp : sscanf input = some r) (hw : WellFormed t) (h0 : 0 ≤ t.rowCount)
    (h1 : t.rowCount < (TABLE_MAX_ROWS : Int)) :
    executeInsert sscanf input t = .ok (afterInsert t r) := by
  have hn : Int.ofNat t.rowCount.toNat = t.rowCount := by
    rw [Int.ofNat_eq_coe, Int.toNat_of_nonneg h0]
  have hk : t.rowCount.toNat < TABLE_MAX_ROWS := by omega
  obtain ⟨hg, hlen⟩ := pageOf_get t _ hw hk
  have hb := offset_bound t.rowCount.toNat
  have hv : ROW_SIZE ≤ ((pageOf t t.rowCount.toNat).drop
      (t.rowCount.toNat % ROWS_PER_PAGE * ROW_SIZE)).length := by
    rw [List.length_drop, hlen]; omega
  have hs := rowSlot_nat t _ hw hk
  rw [hn] at hs
  have he : encodeOver r ((pageOf t t.rowCount.toNat).drop
      (t.rowCount.toNat % ROWS_PER_PAGE * ROW_SIZE))
      = encodeOver r (window t t.rowCount.toNat) := (encodeOver_take r _).symm
  have hl : (encodeOver r (window t t.rowCount.toNat)).length = ROW_SIZE :=
    length_encodeOver r _ (le_of_eq (length_window t _ hw hk).symm)
  simp only [executeInsert, hp, hs, bind, Except.bind, Option.map_some', serializeRow_view r _ hv,
    pure, Except.pure, storeSlot, hg, afterInsert, splice, he, hl, List.drop_drop,
    List.append_assoc]

theorem length_splice (l enc : List UInt8) (off : Nat) (h : off + enc.length ≤ l.length) :
    (splice l off enc).length = l.length := by
  simp only [splice, List.length_append, List.length_take, List.length_drop]
  omega

theorem afterInsert_wf (t : Table) (r : Row) (hw : WellFormed t)
    (hk : t.rowCount.toNat < TABLE_MAX_ROWS) : WellFormed (afterInsert t r) := by
  have hlen := (pageOf_get t _ hw hk).2
  have hb := offset_bound t.rowCount.toNat
  have hl : (encodeOver r (window t t.rowCount.toNat)).length = ROW_SIZE :=
    length_encodeOver r _ (le_of_eq (length_window t _ hw hk).symm)
  refine ⟨?_, ?_⟩
  · simp only [afterInsert, List.length_set]; exact hw.1
  · intro p hp
    rcases List.mem_or_eq_of_mem_set hp with h | h
    · exact hw.2 p h
    · rw [h, length_splice _ _ _ (by rw [hl, hlen]; exact hb)]; exact hlen

theorem pageOf_afterInsert_same (t : Table) (r : Row) (k : Nat) (hw : WellFormed t)
    (hn : t.rowCount.toNat < TABLE_MAX_ROWS)
    (hk : k / ROWS_PER_PAGE = t.rowCount.toNat / ROWS_PER_PAGE) :
    pageOf (afterInsert t r) k
      = splice (pageOf t t.rowCount.toNat) (t.rowCount.toNat % ROWS_PER_PAGE * ROW_SIZE)
          (encodeOver r (window t t.rowCount.toNat)) := by
  have hlt : t.rowCount.toNat / ROWS_PER_PAGE < t.pages.length := by
    rw [hw.1]; exact lt_of_le_of_lt (Nat.div_le_self _ _) hn
  simp only [pageOf, afterInsert, List.getD_eq_getElem?_getD, hk, List.getElem?_set_self hlt,
    Option.getD_some]

theorem pageOf_afterInsert_other (t : Table) (r : Row) (k : Nat)
    (hk : t.rowCount.toNat / ROWS_PER_PAGE ≠ k / ROWS_PER_PAGE) :
    pageOf (afterInsert t r) k = pageOf t k := by
  simp only [pageOf, afterInsert, List.getD_eq_getElem?_getD, List.getElem?_set_ne hk]

theorem window_afterInsert_same (t : Table) (r : Row) (hw : WellFormed t)
    (hn : t.rowCount.toNat < TABLE_MAX_ROWS) :
    window (afterInsert t r) t.rowCount.toNat = encodeOver r (window t t.rowCount.toNat) := by
  have hlen := (pageOf_get t _ hw hn).2
  have hb := offset_bound t.rowCount.toNat
  have hl : (encodeOver r (window t t.rowCount.toNat)).length = ROW_SIZE :=
    length_encodeOver r _ (le_of_eq (length_window t _ hw hn).symm)
  have key := splice_at (pageOf t t.rowCount.toNat) (encodeOver r (window t t.rowCount.toNat))
    ((pageOf t t.rowCount.toNat).drop (t.rowCount.toNat % ROWS_PER_PAGE * ROW_SIZE
      + (encodeOver r (window t t.rowCount.toNat)).length))
    (t.rowCount.toNat % ROWS_PER_PAGE * ROW_SIZE) (by omega)
  rw [hl] at key
  rw [window, pageOf_afterInsert_same t r _ hw hn rfl, splice, hl]
  exact key

theorem window_afterInsert_other (t : Table) (r : Row) (k : Nat) (hw : WellFormed t)
    (hn : t.rowCount.toNat < TABLE_MAX_ROWS) (hne : k ≠ t.rowCount.toNat) :
    window (afterInsert t r) k = window t k := by
  by_cases hpg : k / ROWS_PER_PAGE = t.rowCount.toNat / ROWS_PER_PAGE
  · have hlen := (pageOf_get t _ hw hn).2
    have hb := offset_bound t.rowCount.toNat
    have hl : (encodeOver r (window t t.rowCount.toNat)).length = ROW_SIZE :=
      length_encodeOver r _ (le_of_eq (length_window t _ hw hn).symm)
    have hpk : pageOf t k = pageOf t t.rowCount.toNat := by simp only [pageOf, hpg]
    have hmod : k % ROWS_PER_PAGE ≠ t.rowCount.toNat % ROWS_PER_PAGE := by
      intro hm
      apply hne
      rw [← Nat.div_add_mod k ROWS_PER_PAGE, ← Nat.div_add_mod t.rowCount.toNat ROWS_PER_PAGE,
        hpg, hm]
    rw [window, window, pageOf_afterInsert_same t r k hw hn hpg, hpk, splice]
    rcases Nat.lt_or_gt_of_ne hmod with hlt | hgt
    · exact splice_before _ _ _ _ _ _ (by rw [ROW_SIZE_eq]; omega) (by omega)
    · exact splice_after _ _ _ _ _ (by rw [hl, ROW_SIZE_eq]; omega) (by omega)
  · rw [window, window, pageOf_afterInsert_other t r k (fun h => hpg h.symm)]

/-! ## The table `dbOpen` returns -/

theorem dbOpen_eq (fileName : String) : dbOpen fileName = .ok freshTable := rfl

theorem freshTable_wf : WellFormed freshTable := by
  refine ⟨List.length_replicate _ _, ?_⟩
  intro p hp
  rw [List.eq_of_mem_replicate hp, List.length_replicate]

theorem pageOf_fresh (k : Nat) (hk : k < TABLE_MAX_ROWS) :
    pageOf freshTable k = List.replicate PAGE_SIZE 0 := by
  have hlt : k / ROWS_PER_PAGE < TABLE_MAX_ROWS := lt_of_le_of_lt (Nat.div_le_self _ _) hk
  simp only [pageOf, freshTable, List.getD_eq_getElem?_getD, List.getElem?_replicate, hlt,
    if_true, Option.getD_some]

theorem window_fresh (k : Nat) (hk : k < TABLE_MAX_ROWS) :
    window freshTable k = List.replicate ROW_SIZE 0 := by
  rw [window, pageOf_fresh k hk]
  exact zeros_field _ _ _ (offset_bound k)

/-! ## Invariants of the reachable tables -/

theorem executeInsert_cases (sscanf : String → Option Row) (input : String) (t t' : Table)
    (hw : WellFormed t) (h0 : 0 ≤ t.rowCount)
    (h : executeInsert sscanf input t = .ok t') :
    t' = t ∨ (t.rowCount < (TABLE_MAX_ROWS : Int) ∧
      ∃ r, sscanf input = some r ∧ t' = afterInsert t r) := by
  cases hp : sscanf input with
  | none =>
    left
    simp only [executeInsert, hp, Except.ok.injEq] at h
    exact h.symm
  | some r =>
    right
    by_cases hfull : (TABLE_MAX_ROWS : Int) ≤ t.rowCount
    · rw [executeInsert_nil sscanf input t r hp hfull] at h
      cases h
    · have h1 : t.rowCount < (TABLE_MAX_ROWS : Int) := lt_of_not_le hfull
      rw [executeInsert_ok sscanf input t r hp hw h0 h1, Except.ok.injEq] at h
      exact ⟨h1, r, rfl, h.symm⟩

theorem reachable_inv (t : Table) (h : Reachable t) :
    WellFormed t ∧ 0 ≤ t.rowCount ∧ t.rowCount ≤ (TABLE_MAX_ROWS : Int) := by
  induction h with
  | opened fileName t ht =>
    rw [dbOpen_eq, Except.ok.injEq] at ht
    subst ht
    exact ⟨freshTable_wf, le_refl _, Int.ofNat_nonneg _⟩
  | inserted sscanf input t t' _ hstep ih =>
    obtain ⟨hw, h0, h1⟩ := ih
    rcases executeInsert_cases sscanf input t t' hw h0 hstep with h | ⟨hlt, r, _, h⟩
    · rw [h]; exact ⟨hw, h0, h1⟩
    · subst h
      refine ⟨afterInsert_wf t r hw (by omega), ?_, ?_⟩
      · simp only [afterInsert]; omega
      · simp only [afterInsert]; omega
  | selected t out _ _ ih => exact ih

theorem afterInsert_zeroTail (t : Table) (r : Row) (hw : WellFormed t) (h0 : 0 ≤ t.rowCount)
    (hn : t.rowCount.toNat < TABLE_MAX_ROWS) (hz : ZeroTail t) : ZeroTail (afterInsert t r) := by
  intro k hk hlt
  have e : (afterInsert t r).rowCount.toNat = t.rowCount.toNat + 1 := by
    simp only [afterInsert]; omega
  rw [e] at hk
  rw [window_afterInsert_other t r k hw hn (by omega)]
  exact hz k (by omega) hlt

theorem reachable_zeroTail (t : Table) (h : Reachable t) : ZeroTail t := by
  induction h with
  | opened fileName t ht =>
    rw [dbOpen_eq, Except.ok.injEq] at ht
    subst ht
    intro k _ hk
    exact window_fresh k hk
  | inserted sscanf input t t' hr hstep ih =>
    obtain ⟨hw, h0, _⟩ := reachable_inv t hr
    rcases executeInsert_cases sscanf input t t' hw h0 hstep with h | ⟨hlt, r, _, h⟩
    · rw [h]; exact ih
    · subst h
      exact afterInsert_zeroTail t r hw h0 (by omega) ih
  | selected t out _ _ ih => exact ih

/-! ## The loop of `executeSelect` -/

theorem mapM_zip (f : Nat → Except Panic (Nat × Row)) :
    ∀ (l : List Nat) (rs : List Row), l.length = rs.length →
      (∀ i (h1 : i < l.length) (h2 : i < rs.length), f l[i] = .ok (l[i], rs[i])) →
      l.mapM f = .ok (l.zip rs) := by
  intro l
  induction l with
  | nil =>
    intro rs _ _
    cases rs <;> rfl
  | cons a l ih =>
    intro rs hlen hf
    cases rs with
    | nil => simp at hlen
    | cons r rs =>
      have hhead := hf 0 (by simp) (by simp)
      have htail := ih rs (by simpa using hlen) (fun i h1 h2 =>
        hf (i + 1) (by simpa using h1) (by simpa using h2))
      simp only [List.getElem_cons_zero] at hhead
      rw [List.mapM_cons, hhead, htail]
      rfl

theorem select_step (t : Table) (k : Nat) (hw : WellFormed t) (hk : k < TABLE_MAX_ROWS) :
    (do
      let slot ← rowSlot t (Int.ofNat k)
      let row ← deserializeRow (slot.map Slot.bytes)
      pure (k, row) : Except Panic (Nat × Row))
      = (decode (window t k)).map fun row => (k, row) := by
  have hlen := (pageOf_get t k hw hk).2
  have hb := offset_bound k
  have hv : ROW_SIZE ≤ ((pageOf t k).drop (k % ROWS_PER_PAGE * ROW_SIZE)).length := by
    rw [List.length_drop, hlen]; omega
  simp only [rowSlot_nat t k hw hk, bind, Except.bind, Option.map_some',
    deserializeRow_view _ hv, window, decode_take]
  cases decode ((pageOf t k).drop (k % ROWS_PER_PAGE * ROW_SIZE)) <;> rfl

theorem executeSelect_eq (t : Table) (rows : List Row) (hw : WellFormed t)
    (hn : t.rowCount.toNat = rows.length) (hcap : rows.length ≤ TABLE_MAX_ROWS)
    (hrows : ∀ i (h : i < rows.length), decode (window t i) = .ok rows[i]) :
    executeSelect t = .ok ((List.range rows.length).zip rows) := by
  rw [executeSelect, hn]
  apply mapM_zip
  · exact List.length_range _
  · intro i h1 h2
    rw [List.getElem_range, select_step t i hw (lt_of_lt_of_le h2 hcap), hrows i h2]
    rfl

/-! ## A run of inserts -/

theorem insertAll_eq (sscanf : String → Option Row) :
    ∀ (inputs : List String) (rows : List Row) (t : Table),
      inputs.map sscanf = rows.map some → WellFormed t → 0 ≤ t.rowCount →
      t.rowCount + rows.length ≤ (TABLE_MAX_ROWS : Int) →
      insertAll sscanf inputs t = .ok (rows.foldl afterInsert t) := by
  intro inputs
  induction inputs with
  | nil =>
    intro rows t hparse _ _ _
    cases rows with
    | nil => rfl
    | cons r rs => simp at hparse
  | cons input inputs ih =>
    intro rows t hparse hw h0 hcap
    cases rows with
    | nil => simp at hparse
    | cons r rs =>
      simp only [List.map_cons, List.cons.injEq] at hparse
      simp only [List.length_cons, Nat.cast_add, Nat.cast_one] at hcap
      have hlt : t.rowCount < (TABLE_MAX_ROWS : Int) := by omega
      have hstep := executeInsert_ok sscanf input t r hparse.1 hw h0 hlt
      have hrec := ih rs (afterInsert t r) hparse.2 (afterInsert_wf t r hw (by omega))
        (by simp only [afterInsert]; omega) (by simp only [afterInsert]; omega)
      simp only [insertAll, List.foldlM_cons, hstep, List.foldl_cons] at hrec ⊢
      exact hrec

theorem foldl_inv : ∀ (rows : List Row) (t : Table), WellFormed t → 0 ≤ t.rowCount →
    t.rowCount + rows.length ≤ (TABLE_MAX_ROWS : Int) →
    WellFormed (rows.foldl afterInsert t) ∧
      (rows.foldl afterInsert t).rowCount = t.rowCount + rows.length ∧
      ∀ k, k < t.rowCount.toNat → window (rows.foldl afterInsert t) k = window t k := by
  intro rows
  induction rows with
  | nil =>
    intro t hw _ _
    exact ⟨hw, by simp, fun _ _ => rfl⟩
  | cons r rs ih =>
    intro t hw h0 hcap
    simp only [List.length_cons, Nat.cast_add, Nat.cast_one] at hcap
    have hlt : t.rowCount.toNat < TABLE_MAX_ROWS := by omega
    have hrc : (afterInsert t r).rowCount = t.rowCount + 1 := rfl
    obtain ⟨h1, h2, h3⟩ := ih (afterInsert t r) (afterInsert_wf t r hw hlt)
      (by rw [hrc]; omega) (by rw [hrc]; omega)
    refine ⟨h1, ?_, ?_⟩
    · simp only [List.foldl_cons, List.length_cons, Nat.cast_add, Nat.cast_one, h2, hrc]
      omega
    · intro k hk
      simp only [List.foldl_cons]
      rw [h3 k (by rw [hrc]; omega), window_afterInsert_other t r k hw hlt (by omega)]

theorem decode_encode_zeros (r : Row) (n : Nat) (hn : ROW_SIZE ≤ n)
    (hu : r.username.length ≤ USERNAME_SIZE) (he : r.email.length ≤ EMAIL_SIZE) :
    decode (encodeOver r (List.replicate n 0)) = .ok (padded r) := by
  rw [ROW_SIZE_eq] at hn
  rw [decode_encodeOver r _ (by rw [List.length_replicate, ROW_SIZE_eq]; exact hn),
    zeros_field n 4 32 (by omega), zeros_field n 36 255 (by omega),
    copy_zeros 32 _ hu, copy_zeros 255 _ he]
  rfl

theorem foldl_decode : ∀ (rows : List Row) (t : Table), WellFormed t → 0 ≤ t.rowCount →
    t.rowCount + rows.length ≤ (TABLE_MAX_ROWS : Int) → ZeroTail t →
    (∀ r ∈ rows, r.username.length ≤ USERNAME_SIZE ∧ r.email.length ≤ EMAIL_SIZE) →
    ∀ i (h : i < rows.length),
      decode (window (rows.foldl afterInsert t) (t.rowCount.toNat + i)) = .ok (padded rows[i]) := by
  intro rows
  induction rows with
  | nil =>
    intro t _ _ _ _ _ i h
    simp at h
  | cons r rs ih =>
    intro t hw h0 hcap hz hfit i h
    simp only [List.length_cons, Nat.cast_add, Nat.cast_one] at hcap
    have hlt : t.rowCount.toNat < TABLE_MAX_ROWS := by omega
    have hrc : (afterInsert t r).rowCount = t.rowCount + 1 := rfl
    have hw1 := afterInsert_wf t r hw hlt
    cases i with
    | zero =>
      obtain ⟨_, _, h3⟩ := foldl_inv rs (afterInsert t r) hw1 (by rw [hrc]; omega)
        (by rw [hrc]; omega)
      obtain ⟨hu, he⟩ := hfit r (List.mem_cons_self _ _)
      simp only [List.foldl_cons, Nat.add_zero, List.getElem_cons_zero]
      rw [h3 _ (by rw [hrc]; omega), window_afterInsert_same t r hw hlt,
        hz _ (le_refl _) hlt]
      exact decode_encode_zeros r ROW_SIZE (le_refl _) hu he
    | succ j =>
      have key := ih (afterInsert t r) hw1 (by rw [hrc]; omega) (by rw [hrc]; omega)
        (afterInsert_zeroTail t r hw h0 hlt hz)
        (fun x hx => hfit x (List.mem_cons_of_mem _ hx)) j (by simpa using h)
      have e : (afterInsert t r).rowCount.toNat + j = t.rowCount.toNat + (j + 1) := by
        rw [hrc]; omega
      rw [e] at key
      simpa only [List.foldl_cons, List.getElem_cons_succ] using key

theorem rowSlot_int (t : Table) (i : Int) (hw : WellFormed t) (h0 : 0 ≤ i)
    (h1 : i < (TABLE_MAX_ROWS : Int)) :
    rowSlot t i = .ok (some
      { pageNum := i.toNat / ROWS_PER_PAGE
        byteOffset := i.toNat % ROWS_PER_PAGE * ROW_SIZE
        bytes := (pageOf t i.toNat).drop (i.toNat % ROWS_PER_PAGE * ROW_SIZE) }) := by
  have hn : Int.ofNat i.toNat = i := by rw [Int.ofNat_eq_coe, Int.toNat_of_nonneg h0]
  have key := rowSlot_nat t i.toNat hw (by omega)
  rw [hn] at key
  exact key

theorem roundtrip_zero (r : Row) (n : Nat) (hn : ROW_SIZE ≤ n)
    (hu : r.username.length ≤ USERNAME_SIZE) (he : r.email.length ≤ EMAIL_SIZE) :
    (serializeRow r (some (List.replicate n 0)) >>= fun w => deserializeRow (some w))
      = .ok (padded r) := by
  have hv : ROW_SIZE ≤ (List.replicate n (0 : UInt8)).length := by
    rw [List.length_replicate]; exact hn
  have hl := length_encodeOver r _ hv
  have hw : ROW_SIZE ≤ (encodeOver r (List.replicate n 0)
      ++ (List.replicate n (0 : UInt8)).drop ROW_SIZE).length := by
    rw [List.length_append, hl]; omega
  have ht : (encodeOver r (List.replicate n 0)
      ++ (List.replicate n (0 : UInt8)).drop ROW_SIZE).take ROW_SIZE
      = encodeOver r (List.replicate n 0) := List.take_left' hl
  rw [serializeRow_view r _ hv]
  show deserializeRow (some _) = _
  rw [deserializeRow_view _ hw, ← decode_take, ht]
  exact decode_encode_zeros r n hn hu he

theorem padded_eq_iff (r : Row) (hu : r.username.length ≤ USERNAME_SIZE)
    (he : r.email.length ≤ EMAIL_SIZE) :
    padded r = r ↔ r.username.length = USERNAME_SIZE ∧ r.email.length = EMAIL_SIZE := by
  constructor
  · intro h
    have h1 := congrArg (fun x => x.username.length) h
    have h2 := congrArg (fun x => x.email.length) h
    simp only [padded, List.length_append, List.length_replicate] at h1 h2
    omega
  · rintro ⟨h1, h2⟩
    cases r with
    | mk id username email =>
      simp only at h1 h2
      simp only [padded, h1, h2, Nat.sub_self, List.replicate_zero, List.append_nil]

/-! ## The claims -/

/-- C1, as amended: for a row whose username is at most 32 bytes and whose email is at
most 255 bytes, `deserializeRow` on a zero-filled slot into which `serializeRow` has just
written the row returns a row with the same id, whose username is the username written
followed by zero bytes up to 32 bytes and whose email is the email written followed by
zero bytes up to 255 bytes, so each begins with the text written; it is the row written
exactly when the username is 32 bytes long and the email 255 bytes long. -/
theorem roundtrip_keeps_text (r : Row) (n : Nat) (hn : ROW_SIZE ≤ n)
    (hu : r.username.length ≤ USERNAME_SIZE) (he : r.email.length ≤ EMAIL_SIZE) :
    ∃ r', (serializeRow r (some (List.replicate n 0)) >>= fun w => deserializeRow (some w))
        = .ok r' ∧
      r'.id = r.id ∧
      r'.username = r.username ++ List.replicate (USERNAME_SIZE - r.username.length) 0 ∧
      r'.email = r.email ++ List.replicate (EMAIL_SIZE - r.email.length) 0 ∧
      r.username <+: r'.username ∧ r.email <+: r'.email ∧
      (r' = r ↔ r.username.length = USERNAME_SIZE ∧ r.email.length = EMAIL_SIZE) :=
  ⟨padded r, roundtrip_zero r n hn hu he, rfl, rfl, rfl, ⟨_, rfl⟩, ⟨_, rfl⟩,
    padded_eq_iff r hu he⟩

/-- C1, as amended, at the row `alice` and a slot of 291 zero bytes. -/
theorem roundtrip_keeps_text_witness :
    ROW_SIZE ≤ 291 ∧ alice.username.length ≤ USERNAME_SIZE ∧ alice.email.length ≤ EMAIL_SIZE ∧
    ∃ r', (serializeRow alice (some (List.replicate 291 0)) >>= fun w =>
        deserializeRow (some w)) = .ok r' ∧
      r'.id = alice.id ∧
      r'.username
        = alice.username ++ List.replicate (USERNAME_SIZE - alice.username.length) 0 ∧
      r'.email = alice.email ++ List.replicate (EMAIL_SIZE - alice.email.length) 0 ∧
      alice.username <+: r'.username ∧ alice.email <+: r'.email ∧
      (r' = alice ↔ alice.username.length = USERNAME_SIZE ∧ alice.email.length = EMAIL_SIZE) :=
  ⟨by decide, by decide, by decide,
    roundtrip_keeps_text alice 291 (by decide) (by decide) (by decide)⟩

/-- C1, counterexample: the row `{1, "alice", "a@x"}` is within the field widths, and
written into a zero-filled slot of `ROW_SIZE` bytes it does not read back as itself: the
row read back has the five bytes of `alice` followed by 27 zero bytes as username. -/
theorem roundtrip_alice_differs :
    alice.username.length ≤ 32 ∧ alice.email.length ≤ 255 ∧
    (serializeRow alice (some (List.replicate ROW_SIZE 0)) >>= fun w =>
        deserializeRow (some w)) ≠ .ok alice ∧
    (serializeRow alice (some (List.replicate ROW_SIZE 0)) >>= fun w =>
        deserializeRow (some w)) = .ok (padded alice) := by
  have key := roundtrip_zero alice ROW_SIZE (le_refl _) (by decide) (by decide)
  refine ⟨by decide, by decide, ?_, key⟩
  rw [key]
  intro h
  have h2 : padded alice = alice := Except.ok.inj h
  revert h2
  decide

/-- C2: for a row with username of `n <= 32` bytes and email of `m <= 255` bytes,
`serializeRow` into a zero-filled slot followed by `deserializeRow` yields the id of the
row, a username of exactly 32 bytes, the username written followed by `32 - n` zero
bytes, and an email of exactly 255 bytes, the email written followed by `255 - m` zero
bytes. -/
theorem roundtrip_padded (r : Row) (n : Nat) (hn : ROW_SIZE ≤ n)
    (hu : r.username.length ≤ USERNAME_SIZE) (he : r.email.length ≤ EMAIL_SIZE) :
    ∃ r', (serializeRow r (some (List.replicate n 0)) >>= fun w => deserializeRow (some w))
        = .ok r' ∧
      r'.id = r.id ∧
      r'.username.length = 32 ∧
      r'.username = r.username ++ List.replicate (32 - r.username.length) 0 ∧
      r'.email.length = 255 ∧
      r'.email = r.email ++ List.replicate (255 - r.email.length) 0 := by
  refine ⟨padded r, roundtrip_zero r n hn hu he, rfl, ?_, rfl, ?_, rfl⟩
  · simp only [padded, List.length_append, List.length_replicate]
    simp only [USERNAME_SIZE] at hu ⊢
    omega
  · simp only [padded, List.length_append, List.length_replicate]
    simp only [EMAIL_SIZE] at he ⊢
    omega

/-- C2 at the row `alice` and a slot of 300 zero bytes. -/
theorem roundtrip_padded_witness :
    ROW_SIZE ≤ 300 ∧ alice.username.length ≤ USERNAME_SIZE ∧ alice.email.length ≤ EMAIL_SIZE ∧
    ∃ r', (serializeRow alice (some (List.replicate 300 0)) >>= fun w =>
        deserializeRow (some w)) = .ok r' ∧
      r'.id = alice.id ∧
      r'.username.length = 32 ∧
      r'.username = alice.username ++ List.replicate (32 - alice.username.length) 0 ∧
      r'.email.length = 255 ∧
      r'.email = alice.email ++ List.replicate (255 - alice.email.length) 0 :=
  ⟨by decide, by decide, by decide,
    roundtrip_padded alice 300 (by decide) (by decide) (by decide)⟩

/-- C3, the code at the failing input: after `TABLE_MAX_ROWS` inserts into the table
`dbOpen` returns, `rowCount` is `TABLE_MAX_ROWS`, and the next `executeInsert` of a line
that scans ends in a nil-pointer panic; it returns no error to its caller. -/
theorem insert_into_full_table_panics :
    ∃ t0 t, dbOpen "" = .ok t0 ∧
      insertAll scanDemo (List.replicate TABLE_MAX_ROWS "insert 1 alice a@x") t0 = .ok t ∧
      t.rowCount = TABLE_MAX_ROWS ∧
      executeInsert scanDemo "insert 1 alice a@x" t = .error .nilDereference := by
  have hparse : (List.replicate TABLE_MAX_ROWS "insert 1 alice a@x").map scanDemo
      = (List.replicate TABLE_MAX_ROWS alice).map some := by
    rw [List.map_replicate, List.map_replicate]; rfl
  have hcap : freshTable.rowCount + ((List.replicate TABLE_MAX_ROWS alice).length : Nat)
      ≤ (TABLE_MAX_ROWS : Int) := by
    rw [List.length_replicate]; simp [freshTable]
  have hrun := insertAll_eq scanDemo _ _ freshTable hparse freshTable_wf (le_refl _) hcap
  obtain ⟨_, hrc, _⟩ := foldl_inv (List.replicate TABLE_MAX_ROWS alice) freshTable
    freshTable_wf (le_refl _) hcap
  rw [List.length_replicate] at hrc
  have hrc2 : ((List.replicate TABLE_MAX_ROWS alice).foldl afterInsert freshTable).rowCount
      = TABLE_MAX_ROWS := by rw [hrc]; simp [freshTable]
  exact ⟨freshTable, _, rfl, hrun, hrc2,
    executeInsert_nil scanDemo _ _ alice rfl (le_of_eq hrc2.symm)⟩

/-- C4: the rows of `n <= TABLE_MAX_ROWS` lines that scan, each with a username of at
most 32 bytes and an email of at most 255 bytes, inserted one after another into the
table `dbOpen` returns, are what `executeSelect` yields: exactly `n` rows, at the
indices `0..n-1` in ascending order, the row at index `k` being the `k`-th row
inserted with its text fields followed by zero bytes up to the field width. -/
theorem select_after_inserts (sscanf : String → Option Row) (fileName : String)
    (inputs : List String) (rows : List Row)
    (hparse : inputs.map sscanf = rows.map some) (hcap : rows.length ≤ TABLE_MAX_ROWS)
    (hfit : ∀ r ∈ rows, r.username.length ≤ USERNAME_SIZE ∧ r.email.length ≤ EMAIL_SIZE) :
    ∃ t0 t, dbOpen fileName = .ok t0 ∧ insertAll sscanf inputs t0 = .ok t ∧
      executeSelect t = .ok ((List.range rows.length).zip (rows.map padded)) := by
  have hcap2 : freshTable.rowCount + (rows.length : Nat) ≤ (TABLE_MAX_ROWS : Int) := by
    simp only [freshTable]; omega
  have hrun := insertAll_eq sscanf inputs rows freshTable hparse freshTable_wf (le_refl _) hcap2
  obtain ⟨hw, hrc, _⟩ := foldl_inv rows freshTable freshTable_wf (le_refl _) hcap2
  have hz : ZeroTail freshTable := fun k _ hk => window_fresh k hk
  have hdec := foldl_decode rows freshTable freshTable_wf (le_refl _) hcap2 hz hfit
  refine ⟨freshTable, _, rfl, hrun, ?_⟩
  have hsel := executeSelect_eq (rows.foldl afterInsert freshTable) (rows.map padded) hw
    (by rw [hrc, List.length_map]; simp [freshTable]) (by rw [List.length_map]; exact hcap)
    (fun i h => by
      have h2 : i < rows.length := by simpa using h
      have key := hdec i h2
      simp only [freshTable, Int.toNat_zero, Nat.zero_add] at key
      rw [List.getElem_map]
      exact key)
  rw [List.length_map] at hsel
  exact hsel

/-- C4 at the two lines `insert 7 b c` and `insert 1 alice a@x`. -/
theorem select_after_inserts_witness :
    (["insert 7 b c", "insert 1 alice a@x"].map scanDemo
        = [{ id := 7, username := [98], email := [99] }, alice].map some) ∧
    [({ id := 7, username := [98], email := [99] } : Row), alice].length ≤ TABLE_MAX_ROWS ∧
    (∀ r ∈ [({ id := 7, username := [98], email := [99] } : Row), alice],
      r.username.length ≤ USERNAME_SIZE ∧ r.email.length ≤ EMAIL_SIZE) ∧
    ∃ t0 t, dbOpen "" = .ok t0 ∧
      insertAll scanDemo ["insert 7 b c", "insert 1 alice a@x"] t0 = .ok t ∧
      executeSelect t = .ok ((List.range
          [({ id := 7, username := [98], email := [99] } : Row), alice].length).zip
        ([({ id := 7, username := [98], email := [99] } : Row), alice].map padded)) :=
  ⟨by decide, by decide, by decide,
    select_after_inserts scanDemo "" ["insert 7 b c", "insert 1 alice a@x"]
      [{ id := 7, username := [98], email := [99] }, alice] (by decide) (by decide)
      (by decide)⟩

/-- C5: on a reachable table with `rowCount < TABLE_MAX_ROWS`, `executeInsert` of a line
that scans returns and leaves `rowCount` one higher; and `TABLE_MAX_ROWS` lines that
scan, inserted one after another into the table `dbOpen` returns, all go through and
leave `rowCount = TABLE_MAX_ROWS`. -/
theorem insert_below_capacity (sscanf : String → Option Row) (input : String) (r : Row)
    (t : Table) (fileName : String) (inputs : List String) (rows : List Row)
    (ht : Reachable t) (hlt : t.rowCount < (TABLE_MAX_ROWS : Int))
    (hp : sscanf input = some r)
    (hparse : inputs.map sscanf = rows.map some) (hlen : rows.length = TABLE_MAX_ROWS) :
    (∃ t', executeInsert sscanf input t = .ok t' ∧ t'.rowCount = t.rowCount + 1) ∧
    (∃ t0 tn, dbOpen fileName = .ok t0 ∧ insertAll sscanf inputs t0 = .ok tn ∧
      tn.rowCount = TABLE_MAX_ROWS) := by
  obtain ⟨hw, h0, _⟩ := reachable_inv t ht
  refine ⟨⟨afterInsert t r, executeInsert_ok sscanf input t r hp hw h0 hlt, rfl⟩, ?_⟩
  have hcap : freshTable.rowCount + (rows.length : Nat) ≤ (TABLE_MAX_ROWS : Int) := by
    rw [hlen]; simp [freshTable]
  have hrun := insertAll_eq sscanf inputs rows freshTable hparse freshTable_wf (le_refl _) hcap
  obtain ⟨_, hrc, _⟩ := foldl_inv rows freshTable freshTable_wf (le_refl _) hcap
  exact ⟨freshTable, _, rfl, hrun, by rw [hrc, hlen]; simp [freshTable]⟩

/-- C5 at the table `dbOpen` returns and `TABLE_MAX_ROWS` times the line
`insert 1 alice a@x`. -/
theorem insert_below_capacity_witness :
    Reachable freshTable ∧ freshTable.rowCount < (TABLE_MAX_ROWS : Int) ∧
    scanDemo "insert 1 alice a@x" = some alice ∧
    ((List.replicate TABLE_MAX_ROWS "insert 1 alice a@x").map scanDemo
      = (List.replicate TABLE_MAX_ROWS alice).map some) ∧
    (List.replicate TABLE_MAX_ROWS alice).length = TABLE_MAX_ROWS ∧
    (∃ t', executeInsert scanDemo "insert 1 alice a@x" freshTable = .ok t' ∧
      t'.rowCount = freshTable.rowCount + 1) ∧
    (∃ t0 tn, dbOpen "" = .ok t0 ∧
      insertAll scanDemo (List.replicate TABLE_MAX_ROWS "insert 1 alice a@x") t0 = .ok tn ∧
      tn.rowCount = TABLE_MAX_ROWS) :=
  have h1 : Reachable freshTable := Reachable.opened "" freshTable rfl
  have h2 : freshTable.rowCount < (TABLE_MAX_ROWS : Int) := by decide
  have h3 : scanDemo "insert 1 alice a@x" = some alice := by decide
  have h4 : (List.replicate TABLE_MAX_ROWS "insert 1 alice a@x").map scanDemo
      = (List.replicate TABLE_MAX_ROWS alice).map some := by
    simp only [List.map_replicate, h3]
  have h5 : (List.replicate TABLE_MAX_ROWS alice).length = TABLE_MAX_ROWS := by simp
  ⟨h1, h2, h3, h4, h5,
    insert_below_capacity scanDemo "insert 1 alice a@x" alice freshTable ""
      (List.replicate TABLE_MAX_ROWS "insert 1 alice a@x") (List.replicate TABLE_MAX_ROWS alice)
      h1 h2 h3 h4 h5⟩

/-- C6: in every table reachable from `dbOpen` by calls of `executeInsert` and
`executeSelect`, `0 <= rowCount <= TABLE_MAX_ROWS`, and
`TABLE_MAX_ROWS = ROWS_PER_PAGE * TABLE_MAX_PAGES = 14 * 100 = 1400`. -/
theorem rowCount_bounds (t : Table) (ht : Reachable t) :
    0 ≤ t.rowCount ∧ t.rowCount ≤ (TABLE_MAX_ROWS : Int) ∧
    TABLE_MAX_ROWS = ROWS_PER_PAGE * TABLE_MAX_PAGES ∧
    ROWS_PER_PAGE * TABLE_MAX_PAGES = 14 * 100 ∧ TABLE_MAX_ROWS = 1400 :=
  ⟨(reachable_inv t ht).2.1, (reachable_inv t ht).2.2, rfl, rfl, rfl⟩

/-- C6 at the table `dbOpen` returns. -/
theorem rowCount_bounds_witness :
    Reachable freshTable ∧
    0 ≤ freshTable.rowCount ∧ freshTable.rowCount ≤ (TABLE_MAX_ROWS : Int) ∧
    TABLE_MAX_ROWS = ROWS_PER_PAGE * TABLE_MAX_PAGES ∧
    ROWS_PER_PAGE * TABLE_MAX_PAGES = 14 * 100 ∧ TABLE_MAX_ROWS = 1400 :=
  ⟨Reachable.opened "" freshTable rfl,
    rowCount_bounds freshTable (Reachable.opened "" freshTable rfl)⟩

/-- C7: on a reachable table, for `0 <= i < TABLE_MAX_ROWS`, `rowSlot(i)` returns a view
that starts in page `i / ROWS_PER_PAGE` at byte offset `(i % ROWS_PER_PAGE) * ROW_SIZE`
of that page. -/
theorem rowSlot_address (t : Table) (ht : Reachable t) (i : Int) (h0 : 0 ≤ i)
    (h1 : i < (TABLE_MAX_ROWS : Int)) :
    ∃ s page, rowSlot t i = .ok (some s) ∧
      (s.pageNum : Int) = i / (ROWS_PER_PAGE : Int) ∧
      (s.byteOffset : Int) = i % (ROWS_PER_PAGE : Int) * (ROW_SIZE : Int) ∧
      t.pages[s.pageNum]? = some page ∧ s.bytes = page.drop s.byteOffset := by
  obtain ⟨hw, _, _⟩ := reachable_inv t ht
  have hk : i.toNat < TABLE_MAX_ROWS := by omega
  refine ⟨_, pageOf t i.toNat, rowSlot_int t i hw h0 h1, ?_, ?_, (pageOf_get t _ hw hk).1, rfl⟩
  · simp only [ROWS_PER_PAGE_eq]; omega
  · simp only [ROWS_PER_PAGE_eq, ROW_SIZE_eq]; omega

/-- C7 at row 15 of the table `dbOpen` returns. -/
theorem rowSlot_address_witness :
    Reachable freshTable ∧ (0 : Int) ≤ 15 ∧ (15 : Int) < (TABLE_MAX_ROWS : Int) ∧
    ∃ s page, rowSlot freshTable 15 = .ok (some s) ∧
      (s.pageNum : Int) = 15 / (ROWS_PER_PAGE : Int) ∧
      (s.byteOffset : Int) = 15 % (ROWS_PER_PAGE : Int) * (ROW_SIZE : Int) ∧
      freshTable.pages[s.pageNum]? = some page ∧ s.bytes = page.drop s.byteOffset :=
  ⟨Reachable.opened "" freshTable rfl, by decide, by decide,
    rowSlot_address freshTable (Reachable.opened "" freshTable rfl) 15 (by decide) (by decide)⟩

/-- C8, as amended: on a reachable table, for `0 <= i < TABLE_MAX_ROWS`, the slice
`rowSlot(i)` returns runs from the first byte of the slot to the end of its page: its
length is `PAGE_SIZE - (i % ROWS_PER_PAGE) * ROW_SIZE`, which is at least `ROW_SIZE`. -/
theorem rowSlot_length (t : Table) (ht : Reachable t) (i : Int) (h0 : 0 ≤ i)
    (h1 : i < (TABLE_MAX_ROWS : Int)) :
    ∃ s, rowSlot t i = .ok (some s) ∧
      (s.bytes.length : Int)
        = (PAGE_SIZE : Int) - i % (ROWS_PER_PAGE : Int) * (ROW_SIZE : Int) ∧
      ROW_SIZE ≤ s.bytes.length := by
  obtain ⟨hw, _, _⟩ := reachable_inv t ht
  have hk : i.toNat < TABLE_MAX_ROWS := by omega
  have hlen := (pageOf_get t _ hw hk).2
  have hb := offset_bound i.toNat
  refine ⟨_, rowSlot_int t i hw h0 h1, ?_, ?_⟩
  · simp only [List.length_drop, hlen]
    simp only [ROWS_PER_PAGE_eq, ROW_SIZE_eq, PAGE_SIZE_eq] at hb ⊢
    omega
  · simp only [List.length_drop, hlen]
    omega

/-- C8, as amended, at row 15 of the table `dbOpen` returns. -/
theorem rowSlot_length_witness :
    Reachable freshTable ∧ (0 : Int) ≤ 15 ∧ (15 : Int) < (TABLE_MAX_ROWS : Int) ∧
    ∃ s, rowSlot freshTable 15 = .ok (some s) ∧
      (s.bytes.length : Int)
        = (PAGE_SIZE : Int) - 15 % (ROWS_PER_PAGE : Int) * (ROW_SIZE : Int) ∧
      ROW_SIZE ≤ s.bytes.length :=
  ⟨Reachable.opened "" freshTable rfl, by decide, by decide,
    rowSlot_length freshTable (Reachable.opened "" freshTable rfl) 15 (by decide) (by decide)⟩

/-- C8, counterexample: on the table `dbOpen` returns, the slice `rowSlot(0)` returns is
the whole first page, `PAGE_SIZE = 4096` bytes long, not `ROW_SIZE = 291`. -/
theorem rowSlot_zero_is_whole_page :
    ∃ t s, dbOpen "" = .ok t ∧ rowSlot t 0 = .ok (some s) ∧
      s.bytes.length = 4096 ∧ s.bytes.length ≠ ROW_SIZE := by
  have key := rowSlot_int freshTable 0 freshTable_wf (le_refl _) (by decide)
  refine ⟨freshTable, _, rfl, key, ?_⟩
  have hlen := (pageOf_get freshTable (0 : Int).toNat freshTable_wf (by decide)).2
  have e : (List.drop ((0 : Int).toNat % ROWS_PER_PAGE * ROW_SIZE)
      (pageOf freshTable (0 : Int).toNat)).length = 4096 := by
    rw [List.length_drop, hlen]; rfl
  exact ⟨e, by rw [e]; decide⟩

/-- C9: on a reachable table, for distinct `i` and `j` in `[0, TABLE_MAX_ROWS)`, the
`ROW_SIZE`-byte ranges that start where `rowSlot(i)` and `rowSlot(j)` start (page
`i / ROWS_PER_PAGE`, offset `(i % ROWS_PER_PAGE) * ROW_SIZE`) do not overlap: the pages
differ, or one range ends before the other begins. -/
theorem rowSlot_disjoint (t : Table) (ht : Reachable t) (i j : Int) (hi0 : 0 ≤ i)
    (hi1 : i < (TABLE_MAX_ROWS : Int)) (hj0 : 0 ≤ j) (hj1 : j < (TABLE_MAX_ROWS : Int))
    (hne : i ≠ j) :
    ∃ si sj, rowSlot t i = .ok (some si) ∧ rowSlot t j = .ok (some sj) ∧
      (si.pageNum : Int) = i / (ROWS_PER_PAGE : Int) ∧
      (si.byteOffset : Int) = i % (ROWS_PER_PAGE : Int) * (ROW_SIZE : Int) ∧
      (sj.pageNum : Int) = j / (ROWS_PER_PAGE : Int) ∧
      (sj.byteOffset : Int) = j % (ROWS_PER_PAGE : Int) * (ROW_SIZE : Int) ∧
      (si.pageNum ≠ sj.pageNum ∨ si.byteOffset + ROW_SIZE ≤ sj.byteOffset ∨
        sj.byteOffset + ROW_SIZE ≤ si.byteOffset) := by
  obtain ⟨hw, _, _⟩ := reachable_inv t ht
  refine ⟨_, _, rowSlot_int t i hw hi0 hi1, rowSlot_int t j hw hj0 hj1, ?_, ?_, ?_, ?_, ?_⟩
  · simp only [ROWS_PER_PAGE_eq]; omega
  · simp only [ROWS_PER_PAGE_eq, ROW_SIZE_eq]; omega
  · simp only [ROWS_PER_PAGE_eq]; omega
  · simp only [ROWS_PER_PAGE_eq, ROW_SIZE_eq]; omega
  · simp only [ROWS_PER_PAGE_eq, ROW_SIZE_eq]; omega

/-- C9 at rows 14 and 15 of the table `dbOpen` returns. -/
theorem rowSlot_disjoint_witness :
    Reachable freshTable ∧ (0 : Int) ≤ 14 ∧ (14 : Int) < (TABLE_MAX_ROWS : Int) ∧
    (0 : Int) ≤ 15 ∧ (15 : Int) < (TABLE_MAX_ROWS : Int) ∧ (14 : Int) ≠ 15 ∧
    ∃ si sj, rowSlot freshTable 14 = .ok (some si) ∧ rowSlot freshTable 15 = .ok (some sj) ∧
      (si.pageNum : Int) = 14 / (ROWS_PER_PAGE : Int) ∧
      (si.byteOffset : Int) = 14 % (ROWS_PER_PAGE : Int) * (ROW_SIZE : Int) ∧
      (sj.pageNum : Int) = 15 / (ROWS_PER_PAGE : Int) ∧
      (sj.byteOffset : Int) = 15 % (ROWS_PER_PAGE : Int) * (ROW_SIZE : Int) ∧
      (si.pageNum ≠ sj.pageNum ∨ si.byteOffset + ROW_SIZE ≤ sj.byteOffset ∨
        sj.byteOffset + ROW_SIZE ≤ si.byteOffset) :=
  ⟨Reachable.opened "" freshTable rfl, by decide, by decide, by decide, by decide, by decide,
    rowSlot_disjoint freshTable (Reachable.opened "" freshTable rfl) 14 15 (by decide)
      (by decide) (by decide) (by decide) (by decide)⟩

/-- C10: on a reachable table, for `0 <= i < TABLE_MAX_ROWS`, the slot of row `i` lies
inside one page: `(i % ROWS_PER_PAGE) * ROW_SIZE + ROW_SIZE <= PAGE_SIZE`, with
`ROWS_PER_PAGE = PAGE_SIZE / ROW_SIZE = 14`; the bytes of a page from offset
`ROWS_PER_PAGE * ROW_SIZE = 4074` on belong to no slot. -/
theorem slot_within_page (t : Table) (ht : Reachable t) (i : Int) (h0 : 0 ≤ i)
    (h1 : i < (TABLE_MAX_ROWS : Int)) :
    ∃ s, rowSlot t i = .ok (some s) ∧
      (s.byteOffset : Int) = i % (ROWS_PER_PAGE : Int) * (ROW_SIZE : Int) ∧
      s.byteOffset + ROW_SIZE ≤ PAGE_SIZE ∧
      i % (ROWS_PER_PAGE : Int) * (ROW_SIZE : Int) + (ROW_SIZE : Int) ≤ (PAGE_SIZE : Int) ∧
      ROWS_PER_PAGE = PAGE_SIZE / ROW_SIZE ∧ ROWS_PER_PAGE = 14 ∧
      ROWS_PER_PAGE * ROW_SIZE = 4074 ∧
      ∀ b, ROWS_PER_PAGE * ROW_SIZE ≤ b → ¬ (s.byteOffset ≤ b ∧ b < s.byteOffset + ROW_SIZE) := by
  obtain ⟨hw, _, _⟩ := reachable_inv t ht
  have hlt : i.toNat % ROWS_PER_PAGE < 14 := Nat.mod_lt _ (by decide)
  refine ⟨_, rowSlot_int t i hw h0 h1, ?_, offset_bound _, ?_, rfl, rfl, rfl, ?_⟩
  · simp only [ROWS_PER_PAGE_eq, ROW_SIZE_eq]; omega
  · simp only [ROWS_PER_PAGE_eq, ROW_SIZE_eq, PAGE_SIZE_eq]; omega
  · intro b hb
    simp only [ROWS_PER_PAGE_eq, ROW_SIZE_eq] at hb hlt ⊢
    omega

/-- C10 at row 13, the last slot of the first page, of the table `dbOpen` returns. -/
theorem slot_within_page_witness :
    Reachable freshTable ∧ (0 : Int) ≤ 13 ∧ (13 : Int) < (TABLE_MAX_ROWS : Int) ∧
    ∃ s, rowSlot freshTable 13 = .ok (some s) ∧
      (s.byteOffset : Int) = 13 % (ROWS_PER_PAGE : Int) * (ROW_SIZE : Int) ∧
      s.byteOffset + ROW_SIZE ≤ PAGE_SIZE ∧
      13 % (ROWS_PER_PAGE : Int) * (ROW_SIZE : Int) + (ROW_SIZE : Int) ≤ (PAGE_SIZE : Int) ∧
      ROWS_PER_PAGE = PAGE_SIZE / ROW_SIZE ∧ ROWS_PER_PAGE = 14 ∧
      ROWS_PER_PAGE * ROW_SIZE = 4074 ∧
      ∀ b, ROWS_PER_PAGE * ROW_SIZE ≤ b → ¬ (s.byteOffset ≤ b ∧ b < s.byteOffset + ROW_SIZE) :=
  ⟨Reachable.opened "" freshTable rfl, by decide, by decide,
    slot_within_page freshTable (Reachable.opened "" freshTable rfl) 13 (by decide) (by decide)⟩

/-! ## Reads that cannot fail -/

theorem decode_ok (w : List UInt8) (h : 4 ≤ w.length) : decode w = .ok (rowOf w) := by
  match w, h with
  | a :: b :: c :: d :: rest, _ =>
    simp only [rowOf, decode, List.take_succ_cons, List.take_zero, uint32, Except.map]

theorem rowSlot_ge (u : Table) (i : Int) (h : (TABLE_MAX_ROWS : Int) ≤ i) :
    rowSlot u i = .ok none := by
  have h1 : i ≥ ((TABLE_MAX_ROWS : Nat) : Int) := h
  simp only [rowSlot, h1, if_true]

theorem readRow_eq (t : Table) (k : Nat) (hw : WellFormed t) (hk : k < TABLE_MAX_ROWS) :
    readRow t (Int.ofNat k) = .ok (rowOf (window t k)) := by
  have hlen := (pageOf_get t k hw hk).2
  have hb := offset_bound k
  have hv : ROW_SIZE ≤ ((pageOf t k).drop (k % ROWS_PER_PAGE * ROW_SIZE)).length := by
    rw [List.length_drop, hlen]; omega
  have h4 : 4 ≤ (window t k).length := by
    rw [length_window t k hw hk, ROW_SIZE_eq]; omega
  simp only [readRow, rowSlot_nat t k hw hk, bind, Except.bind, Option.map_some',
    deserializeRow_view _ hv]
  rw [← decode_take]
  exact decode_ok _ h4

theorem executeSelect_total (t : Table) (hw : WellFormed t)
    (hcap : t.rowCount ≤ (TABLE_MAX_ROWS : Int)) :
    executeSelect t = .ok ((List.range t.rowCount.toNat).zip
      ((List.range t.rowCount.toNat).map fun k => rowOf (window t k))) := by
  have hlen : ((List.range t.rowCount.toNat).map fun k => rowOf (window t k)).length
      = t.rowCount.toNat := by rw [List.length_map, List.length_range]
  have key := executeSelect_eq t ((List.range t.rowCount.toNat).map fun k => rowOf (window t k))
    hw hlen.symm (by rw [hlen]; omega)
    (fun i h => by
      have hi : i < t.rowCount.toNat := by rw [hlen] at h; exact h
      have h4 : 4 ≤ (window t i).length := by
        rw [length_window t i hw (by omega), ROW_SIZE_eq]; omega
      rw [List.getElem_map, List.getElem_range]
      exact decode_ok _ h4)
  rw [hlen] at key
  exact key

/-! ## The layout `serializeRow` writes -/

theorem fields_of_parts (a f g rest : List UInt8) (ha : a.length = 4) (hf : f.length = 32)
    (hg : g.length = 255) :
    ((a ++ f ++ g ++ rest).drop 4).take 32 = f ∧
    ((a ++ f ++ g ++ rest).drop 36).take 255 = g ∧
    (a ++ f ++ g ++ rest).drop ROW_SIZE = rest ∧
    (a ++ f ++ g ++ rest).take ROW_SIZE = a ++ f ++ g := by
  have e1 : a ++ f ++ g ++ rest = a ++ (f ++ (g ++ rest)) := by simp
  have e2 : a ++ f ++ g ++ rest = (a ++ f) ++ (g ++ rest) := by simp
  have haf : (a ++ f).length = 36 := by rw [List.length_append, ha, hf]
  have hafg : (a ++ f ++ g).length = ROW_SIZE := by
    rw [List.length_append, haf, hg]; rfl
  refine ⟨?_, ?_, List.drop_left' hafg, List.take_left' hafg⟩
  · rw [e1, List.drop_left' ha]; exact List.take_left' hf
  · rw [e2, List.drop_left' haf]; exact List.take_left' hg

theorem encodeOver_eq (r : Row) (v : List UInt8) (hv : ROW_SIZE ≤ v.length) :
    encodeOver r v = le32 r.id ++
      (r.username.take 32 ++ ((v.drop 4).take 32).drop r.username.length) ++
      (r.email.take 255 ++ ((v.drop 36).take 255).drop r.email.length) := by
  obtain ⟨-, -, -, hb, hc⟩ := cut_fields v hv
  simp only [encodeOver, copy, hb, hc]

theorem encodeOver_zeros (r : Row) (v : List UInt8)
    (hz : v.take ROW_SIZE = List.replicate ROW_SIZE 0) : encodeOver r v = encodeZero r := by
  have hv : ROW_SIZE ≤ (List.replicate ROW_SIZE (0 : UInt8)).length := by
    rw [List.length_replicate]
  rw [← encodeOver_take, hz, encodeOver_eq r _ hv, ROW_SIZE_eq,
    zeros_field 291 4 32 (by omega), zeros_field 291 36 255 (by omega)]
  simp only [encodeZero, List.drop_replicate]

theorem length_field (src old : List UInt8) (n : Nat) (h : old.length = n) :
    (src.take n ++ old.drop src.length).length = n := by
  simp only [List.length_append, List.length_take, List.length_drop, h]
  omega

theorem serializeRow_fields (r : Row) (v : List UInt8) (hv : ROW_SIZE ≤ v.length) :
    serializeRow r (some v) = .ok (le32 r.id ++
      (r.username.take 32 ++ ((v.drop 4).take 32).drop r.username.length) ++
      (r.email.take 255 ++ ((v.drop 36).take 255).drop r.email.length) ++
      v.drop ROW_SIZE) := by
  rw [serializeRow_view r v hv, encodeOver_eq r v hv]

theorem le32_byte (v : UInt32) (rest : List UInt8) (k : Nat) (hk : k < 4) :
    ((le32 v ++ rest)[k]?).map UInt8.toNat = some (v.toNat / 256 ^ k % 256) := by
  have h : k = 0 ∨ k = 1 ∨ k = 2 ∨ k = 3 := by omega
  rcases h with h | h | h | h <;> subst h <;>
    simp [le32, toNat_ofNat8, Nat.shiftRight_eq_div_pow]

/-! ## The claims, continued -/

/-- C11: on a reachable table and for a row index `i >= 0`, `rowSlot(i)` returns nil
exactly when `i >= TABLE_MAX_ROWS` and returns a slot exactly when
`i < TABLE_MAX_ROWS`; for `i >= TABLE_MAX_ROWS` it returns nil on any table at all,
also one without pages, so no page is indexed. -/
theorem rowSlot_nil_iff (t : Table) (ht : Reachable t) (i : Int) (h0 : 0 ≤ i) :
    (rowSlot t i = .ok none ↔ (TABLE_MAX_ROWS : Int) ≤ i) ∧
    ((∃ s, rowSlot t i = .ok (some s)) ↔ i < (TABLE_MAX_ROWS : Int)) ∧
    ((TABLE_MAX_ROWS : Int) ≤ i → ∀ u : Table, rowSlot u i = .ok none) := by
  obtain ⟨hw, _, _⟩ := reachable_inv t ht
  refine ⟨⟨?_, rowSlot_ge t i⟩, ⟨?_, ?_⟩, fun h u => rowSlot_ge u i h⟩
  · intro h
    by_contra hlt
    rw [rowSlot_int t i hw h0 (lt_of_not_le hlt)] at h
    cases h
  · rintro ⟨s, hs⟩
    by_contra hge
    rw [rowSlot_ge t i (le_of_not_lt hge)] at hs
    cases hs
  · intro hlt
    exact ⟨_, rowSlot_int t i hw h0 hlt⟩

/-- C11 at row 1400 of the table `dbOpen` returns. -/
theorem rowSlot_nil_iff_witness :
    Reachable freshTable ∧ (0 : Int) ≤ 1400 ∧
    (rowSlot freshTable 1400 = .ok none ↔ (TABLE_MAX_ROWS : Int) ≤ 1400) ∧
    ((∃ s, rowSlot freshTable 1400 = .ok (some s)) ↔ (1400 : Int) < (TABLE_MAX_ROWS : Int)) ∧
    ((TABLE_MAX_ROWS : Int) ≤ 1400 → ∀ u : Table, rowSlot u 1400 = .ok none) :=
  ⟨Reachable.opened "" freshTable rfl, by decide,
    rowSlot_nil_iff freshTable (Reachable.opened "" freshTable rfl) 1400 (by decide)⟩

/-- C12: for every row and every destination slot of at least `ROW_SIZE` bytes,
`serializeRow` returns, the slot keeps its length, bytes 0..3 hold the id little-endian
(byte `k` is `(id / 256^k) mod 256`), the bytes from offset 4 hold the first
`min(len(username), 32)` bytes of the username and the bytes from offset 36 hold the
first `min(len(email), 255)` bytes of the email. -/
theorem serializeRow_layout (r : Row) (v : List UInt8) (hv : ROW_SIZE ≤ v.length) :
    ∃ w, serializeRow r (some v) = .ok w ∧ w.length = v.length ∧
      (∀ k, k < 4 → (w[k]?).map UInt8.toNat = some (r.id.toNat / 256 ^ k % 256)) ∧
      (w.drop USERNAME_OFFSET).take (min r.username.length USERNAME_SIZE)
        = r.username.take USERNAME_SIZE ∧
      (w.drop EMAIL_OFFSET).take (min r.email.length EMAIL_SIZE)
        = r.email.take EMAIL_SIZE := by
  obtain ⟨-, -, -, hb, hc⟩ := cut_fields v hv
  have hf := length_field r.username _ 32 hb
  have hg := length_field r.email _ 255 hc
  obtain ⟨p1, p2, p3, p4⟩ := fields_of_parts (le32 r.id) _ _ (v.drop ROW_SIZE)
    (length_le32 r.id) hf hg
  refine ⟨_, serializeRow_fields r v hv, ?_, ?_, ?_, ?_⟩
  · simp only [List.length_append, hf, hg, length_le32, List.length_drop]
    rw [ROW_SIZE_eq] at hv ⊢
    omega
  · intro k hk
    simp only [List.append_assoc]
    exact le32_byte r.id _ k hk
  · have e : (r.username.take 32).length = min r.username.length USERNAME_SIZE := by
      rw [List.length_take, Nat.min_comm]; rfl
    have key : List.take (min r.username.length USERNAME_SIZE) (List.take 32 (List.drop 4
        (le32 r.id ++ (r.username.take 32 ++ ((v.drop 4).take 32).drop r.username.length) ++
          (r.email.take 255 ++ ((v.drop 36).take 255).drop r.email.length) ++
          v.drop ROW_SIZE))) = r.username.take 32 := by
      rw [p1]; exact List.take_left' e
    rw [List.take_take] at key
    have hm : min (min r.username.length USERNAME_SIZE) 32 = min r.username.length USERNAME_SIZE := by
      simp only [USERNAME_SIZE]; omega
    rw [hm] at key
    exact key
  · have e : (r.email.take 255).length = min r.email.length EMAIL_SIZE := by
      rw [List.length_take, Nat.min_comm]; rfl
    have key : List.take (min r.email.length EMAIL_SIZE) (List.take 255 (List.drop 36
        (le32 r.id ++ (r.username.take 32 ++ ((v.drop 4).take 32).drop r.username.length) ++
          (r.email.take 255 ++ ((v.drop 36).take 255).drop r.email.length) ++
          v.drop ROW_SIZE))) = r.email.take 255 := by
      rw [p2]; exact List.take_left' e
    rw [List.take_take] at key
    have hm : min (min r.email.length EMAIL_SIZE) 255 = min r.email.length EMAIL_SIZE := by
      simp only [EMAIL_SIZE]; omega
    rw [hm] at key
    exact key

/-- C12 at the row `alice` and a slot of 300 bytes `0xFF`. -/
theorem serializeRow_layout_witness :
    ROW_SIZE ≤ (List.replicate 300 (255 : UInt8)).length ∧
    ∃ w, serializeRow alice (some (List.replicate 300 255)) = .ok w ∧
      w.length = (List.replicate 300 (255 : UInt8)).length ∧
      (∀ k, k < 4 → (w[k]?).map UInt8.toNat = some (alice.id.toNat / 256 ^ k % 256)) ∧
      (w.drop USERNAME_OFFSET).take (min alice.username.length USERNAME_SIZE)
        = alice.username.take USERNAME_SIZE ∧
      (w.drop EMAIL_OFFSET).take (min alice.email.length EMAIL_SIZE)
        = alice.email.take EMAIL_SIZE :=
  ⟨by rw [List.length_replicate]; decide,
    serializeRow_layout alice (List.replicate 300 255) (by rw [List.length_replicate]; decide)⟩

/-- C13, as amended: for every row and every destination slot of at least `ROW_SIZE`
bytes, the first `ROW_SIZE` bytes after `serializeRow` are the id, the first 32 bytes
of the username followed by what the slot held there before, and the first 255 bytes
of the email followed by what the slot held there before; when the slot was zero before,
they are the bytes `encodeZero` gives, which the row alone determines, with zero bytes
after each text. -/
theorem serializeRow_keeps_field_tails (r : Row) (v : List UInt8) (hv : ROW_SIZE ≤ v.length) :
    ∃ w, serializeRow r (some v) = .ok w ∧
      w.take ROW_SIZE = le32 r.id ++
        (r.username.take 32 ++ ((v.drop 4).take 32).drop r.username.length) ++
        (r.email.take 255 ++ ((v.drop 36).take 255).drop r.email.length) ∧
      (v.take ROW_SIZE = List.replicate ROW_SIZE 0 → w.take ROW_SIZE = encodeZero r) := by
  have hl := length_encodeOver r v hv
  refine ⟨_, serializeRow_view r v hv, ?_, ?_⟩
  · rw [List.take_left' hl, encodeOver_eq r v hv]
  · intro hz
    rw [List.take_left' hl, encodeOver_zeros r v hz]

/-- C13, as amended, at the row `alice` and a slot of 300 zero bytes. -/
theorem serializeRow_keeps_field_tails_witness :
    ROW_SIZE ≤ (List.replicate 300 (0 : UInt8)).length ∧
    ∃ w, serializeRow alice (some (List.replicate 300 0)) = .ok w ∧
      w.take ROW_SIZE = le32 alice.id ++
        (alice.username.take 32
          ++ (((List.replicate 300 (0 : UInt8)).drop 4).take 32).drop alice.username.length) ++
        (alice.email.take 255
          ++ (((List.replicate 300 (0 : UInt8)).drop 36).take 255).drop alice.email.length) ∧
      ((List.replicate 300 (0 : UInt8)).take ROW_SIZE = List.replicate ROW_SIZE 0 →
        w.take ROW_SIZE = encodeZero alice) :=
  ⟨by rw [List.length_replicate]; decide,
    serializeRow_keeps_field_tails alice (List.replicate 300 0)
      (by rw [List.length_replicate]; decide)⟩

/-- C13, counterexample: the row `alice` written into a slot of `ROW_SIZE` zero bytes and
into a slot of `ROW_SIZE` bytes `0xFF` gives two different encodings; in the second the
byte at offset 9, the first after the five bytes of the username, is `0xFF`, not zero. -/
theorem serializeRow_differs_on_prior_content :
    ∃ w0 w1, serializeRow alice (some (List.replicate ROW_SIZE 0)) = .ok w0 ∧
      serializeRow alice (some (List.replicate ROW_SIZE 255)) = .ok w1 ∧
      w0.length = ROW_SIZE ∧ w1.length = ROW_SIZE ∧ w0 ≠ w1 ∧ w1[9]? = some 255 := by
  have hv0 : ROW_SIZE ≤ (List.replicate ROW_SIZE (0 : UInt8)).length := by
    rw [List.length_replicate]
  have hv1 : ROW_SIZE ≤ (List.replicate ROW_SIZE (255 : UInt8)).length := by
    rw [List.length_replicate]
  have h0 := serializeRow_fields alice (List.replicate ROW_SIZE 0) hv0
  have h1 := serializeRow_fields alice (List.replicate ROW_SIZE 255) hv1
  have b0 : (le32 alice.id ++ (alice.username.take 32 ++
      (((List.replicate ROW_SIZE (0 : UInt8)).drop 4).take 32).drop alice.username.length) ++
      (alice.email.take 255 ++
        (((List.replicate ROW_SIZE (0 : UInt8)).drop 36).take 255).drop alice.email.length) ++
      (List.replicate ROW_SIZE (0 : UInt8)).drop ROW_SIZE)[9]? = some 0 := by
    set_option maxRecDepth 20000 in decide
  have b1 : (le32 alice.id ++ (alice.username.take 32 ++
      (((List.replicate ROW_SIZE (255 : UInt8)).drop 4).take 32).drop alice.username.length) ++
      (alice.email.take 255 ++
        (((List.replicate ROW_SIZE (255 : UInt8)).drop 36).take 255).drop alice.email.length) ++
      (List.replicate ROW_SIZE (255 : UInt8)).drop ROW_SIZE)[9]? = some 255 := by
    set_option maxRecDepth 20000 in decide
  refine ⟨_, _, h0, h1, ?_, ?_, ?_, b1⟩
  · have e := serializeRow_view alice _ hv0
    rw [h0, Except.ok.injEq] at e
    rw [e, List.length_append, length_encodeOver alice _ hv0, List.length_drop,
      List.length_replicate, Nat.sub_self, Nat.add_zero]
  · have e := serializeRow_view alice _ hv1
    rw [h1, Except.ok.injEq] at e
    rw [e, List.length_append, length_encodeOver alice _ hv1, List.length_drop,
      List.length_replicate, Nat.sub_self, Nat.add_zero]
  · intro h
    rw [h, b1] at b0
    revert b0
    decide

/-- C14: for every row, so also one whose username is longer than 32 bytes or whose
email is longer than 255 bytes, and a slot of at least `ROW_SIZE` bytes, `serializeRow`
returns without an error; bytes 4..35 begin with the first 32 bytes of the username and are exactly those
when the username is longer than 32 bytes, bytes 36..290 begin with the first 255 bytes
of the email and are exactly those when the email is longer than 255 bytes; the bytes
from offset 291 on and the length of the slot are as before; and `deserializeRow` then
returns those prefixes for the fields that were too long. -/
theorem serializeRow_truncates (r : Row) (v : List UInt8) (hv : ROW_SIZE ≤ v.length) :
    ∃ w r', serializeRow r (some v) = .ok w ∧
      w.length = v.length ∧ w.drop ROW_SIZE = v.drop ROW_SIZE ∧
      r.username.take USERNAME_SIZE <+: (w.drop USERNAME_OFFSET).take USERNAME_SIZE ∧
      r.email.take EMAIL_SIZE <+: (w.drop EMAIL_OFFSET).take EMAIL_SIZE ∧
      (USERNAME_SIZE < r.username.length →
        (w.drop USERNAME_OFFSET).take USERNAME_SIZE = r.username.take USERNAME_SIZE) ∧
      (EMAIL_SIZE < r.email.length →
        (w.drop EMAIL_OFFSET).take EMAIL_SIZE = r.email.take EMAIL_SIZE) ∧
      deserializeRow (some w) = .ok r' ∧ r'.id = r.id ∧
      (USERNAME_SIZE < r.username.length → r'.username = r.username.take USERNAME_SIZE) ∧
      (EMAIL_SIZE < r.email.length → r'.email = r.email.take EMAIL_SIZE) := by
  obtain ⟨-, -, -, hb, hc⟩ := cut_fields v hv
  have hf := length_field r.username _ 32 hb
  have hg := length_field r.email _ 255 hc
  obtain ⟨p1, p2, p3, -⟩ := fields_of_parts (le32 r.id) _ _ (v.drop ROW_SIZE)
    (length_le32 r.id) hf hg
  have hlen : (le32 r.id ++
      (r.username.take 32 ++ ((v.drop 4).take 32).drop r.username.length) ++
      (r.email.take 255 ++ ((v.drop 36).take 255).drop r.email.length) ++
      v.drop ROW_SIZE).length = v.length := by
    simp only [List.length_append, hf, hg, length_le32, List.length_drop]
    rw [ROW_SIZE_eq] at hv ⊢
    omega
  have hu : USERNAME_SIZE < r.username.length →
      r.username.take 32 ++ ((v.drop 4).take 32).drop r.username.length
        = r.username.take 32 := by
    intro h
    simp only [USERNAME_SIZE] at h
    rw [List.drop_of_length_le (by rw [hb]; omega), List.append_nil]
  have he : EMAIL_SIZE < r.email.length →
      r.email.take 255 ++ ((v.drop 36).take 255).drop r.email.length
        = r.email.take 255 := by
    intro h
    simp only [EMAIL_SIZE] at h
    rw [List.drop_of_length_le (by rw [hc]; omega), List.append_nil]
  have hd := deserializeRow_parts (le32 r.id) _ _ (v.drop ROW_SIZE) (length_le32 r.id) hf hg
  have hid := uint32_le32 r.id []
  rw [List.append_nil] at hid
  rw [hid] at hd
  refine ⟨_, _, serializeRow_fields r v hv, hlen, p3, ?_, ?_, ?_, ?_, hd, rfl, ?_, ?_⟩
  · exact p1.symm ▸ ⟨_, rfl⟩
  · exact p2.symm ▸ ⟨_, rfl⟩
  · intro h; exact p1.trans (hu h)
  · intro h; exact p2.trans (he h)
  · intro h; exact hu h
  · intro h; exact he h

/-- C14 at a row with a username of 40 bytes and a slot of 300 bytes `0xFF`. -/
theorem serializeRow_truncates_witness :
    ROW_SIZE ≤ (List.replicate 300 (255 : UInt8)).length ∧
    USERNAME_SIZE < (List.replicate 40 (97 : UInt8)).length ∧
    ∃ w r', serializeRow { id := 3, username := List.replicate 40 97, email := [98] }
        (some (List.replicate 300 255)) = .ok w ∧
      w.length = (List.replicate 300 (255 : UInt8)).length ∧
      w.drop ROW_SIZE = (List.replicate 300 (255 : UInt8)).drop ROW_SIZE ∧
      (List.replicate 40 (97 : UInt8)).take USERNAME_SIZE
        <+: (w.drop USERNAME_OFFSET).take USERNAME_SIZE ∧
      ([98] : List UInt8).take EMAIL_SIZE <+: (w.drop EMAIL_OFFSET).take EMAIL_SIZE ∧
      (USERNAME_SIZE < (List.replicate 40 (97 : UInt8)).length →
        (w.drop USERNAME_OFFSET).take USERNAME_SIZE
          = (List.replicate 40 (97 : UInt8)).take USERNAME_SIZE) ∧
      (EMAIL_SIZE < ([98] : List UInt8).length →
        (w.drop EMAIL_OFFSET).take EMAIL_SIZE = ([98] : List UInt8).take EMAIL_SIZE) ∧
      deserializeRow (some w) = .ok r' ∧ r'.id = 3 ∧
      (USERNAME_SIZE < (List.replicate 40 (97 : UInt8)).length →
        r'.username = (List.replicate 40 (97 : UInt8)).take USERNAME_SIZE) ∧
      (EMAIL_SIZE < ([98] : List UInt8).length →
        r'.email = ([98] : List UInt8).take EMAIL_SIZE) :=
  ⟨by rw [List.length_replicate]; decide, by decide,
    serializeRow_truncates { id := 3, username := List.replicate 40 97, email := [98] }
      (List.replicate 300 255) (by rw [List.length_replicate]; decide)⟩

/-- C15, the code at the failing input: the table `dbOpen` returns has
`TABLE_MAX_ROWS = 1400` pages, not `TABLE_MAX_PAGES = 100`. -/
theorem dbOpen_page_count :
    ∃ t, dbOpen "" = .ok t ∧ t.pages.length = 1400 ∧ t.pages.length = TABLE_MAX_ROWS ∧
      t.pages.length ≠ TABLE_MAX_PAGES := by
  have h : freshTable.pages.length = 1400 := List.length_replicate _ _
  exact ⟨freshTable, rfl, h, h, by rw [h]; decide⟩

/-- C16: `dbOpen` returns without error a table with `rowCount = 0` in which every page
is `PAGE_SIZE = 4096` bytes long and every byte of every page is zero, and
`executeSelect` on that table yields no row. -/
theorem dbOpen_zeroed (fileName : String) :
    ∃ t, dbOpen fileName = .ok t ∧ t.rowCount = 0 ∧
      (∀ p ∈ t.pages, p.length = PAGE_SIZE ∧ p.length = 4096 ∧ ∀ b ∈ p, b = 0) ∧
      executeSelect t = .ok [] := by
  refine ⟨freshTable, rfl, rfl, ?_, rfl⟩
  intro p hp
  have e : p = List.replicate PAGE_SIZE 0 := List.eq_of_mem_replicate hp
  subst e
  exact ⟨List.length_replicate _ _, List.length_replicate _ _,
    fun b hb => List.eq_of_mem_replicate hb⟩

/-! ## Bytes an insert leaves alone -/

theorem getElem?_splice (l enc : List UInt8) (off o : Nat) (hoff : off ≤ l.length)
    (h : o < off ∨ off + enc.length ≤ o) : (splice l off enc)[o]? = l[o]? := by
  have key : ((splice l off enc).drop o).take 1 = (l.drop o).take 1 := by
    rcases h with h | h
    · exact splice_before _ _ _ _ _ _ (by omega) hoff
    · exact splice_after _ _ _ _ _ h hoff
  have hh := congrArg List.head? key
  simpa [List.head?_take] using hh

theorem byteAt_afterInsert (t : Table) (r : Row) (p o : Nat) (hw : WellFormed t)
    (hn : t.rowCount.toNat < TABLE_MAX_ROWS)
    (hout : ¬ (p = t.rowCount.toNat / ROWS_PER_PAGE ∧
      t.rowCount.toNat % ROWS_PER_PAGE * ROW_SIZE ≤ o ∧
      o < t.rowCount.toNat % ROWS_PER_PAGE * ROW_SIZE + ROW_SIZE)) :
    byteAt (afterInsert t r) p o = byteAt t p o := by
  obtain ⟨hg, hlen⟩ := pageOf_get t _ hw hn
  have hb := offset_bound t.rowCount.toNat
  have hl : (encodeOver r (window t t.rowCount.toNat)).length = ROW_SIZE :=
    length_encodeOver r _ (le_of_eq (length_window t _ hw hn).symm)
  by_cases hp : t.rowCount.toNat / ROWS_PER_PAGE = p
  · subst hp
    have hlt : t.rowCount.toNat / ROWS_PER_PAGE < t.pages.length := by
      rw [hw.1]; exact lt_of_le_of_lt (Nat.div_le_self _ _) hn
    have ho : o < t.rowCount.toNat % ROWS_PER_PAGE * ROW_SIZE ∨
        t.rowCount.toNat % ROWS_PER_PAGE * ROW_SIZE
          + (encodeOver r (window t t.rowCount.toNat)).length ≤ o := by
      rw [hl]
      by_contra hc
      exact hout ⟨rfl, by omega, by omega⟩
    simp only [byteAt, afterInsert, List.getElem?_set_self hlt, hg]
    exact getElem?_splice _ _ _ _ (by omega) ho
  · simp only [byteAt, afterInsert, List.getElem?_set_ne hp]

theorem readRow_int (t : Table) (k : Int) (hw : WellFormed t) (h0 : 0 ≤ k)
    (hk : k < (TABLE_MAX_ROWS : Int)) : readRow t k = .ok (rowOf (window t k.toNat)) := by
  have hn : Int.ofNat k.toNat = k := by rw [Int.ofNat_eq_coe, Int.toNat_of_nonneg h0]
  have key := readRow_eq t k.toNat hw (by omega)
  rw [hn] at key
  exact key

/-- C18: on a reachable table with `rowCount = n < TABLE_MAX_ROWS`, `executeInsert` of a
line that scans to any row returns a table that has the same number of pages and in
which every byte outside the `ROW_SIZE` bytes of slot `n` (page `n / ROWS_PER_PAGE`,
offsets from `(n % ROWS_PER_PAGE) * ROW_SIZE`) is what it was; for every `k < n`,
`deserializeRow(rowSlot(k))` returns the same row before and after. -/
theorem insert_frame (sscanf : String → Option Row) (input : String) (r : Row) (t : Table)
    (ht : Reachable t) (hlt : t.rowCount < (TABLE_MAX_ROWS : Int))
    (hp : sscanf input = some r) :
    ∃ t', executeInsert sscanf input t = .ok t' ∧
      t'.pages.length = t.pages.length ∧
      (∀ p o, ¬ (p = t.rowCount.toNat / ROWS_PER_PAGE ∧
          t.rowCount.toNat % ROWS_PER_PAGE * ROW_SIZE ≤ o ∧
          o < t.rowCount.toNat % ROWS_PER_PAGE * ROW_SIZE + ROW_SIZE) →
        byteAt t' p o = byteAt t p o) ∧
      (∀ k : Int, 0 ≤ k → k < t.rowCount →
        ∃ row, readRow t k = .ok row ∧ readRow t' k = .ok row) := by
  obtain ⟨hw, h0, _⟩ := reachable_inv t ht
  have hn : t.rowCount.toNat < TABLE_MAX_ROWS := by omega
  refine ⟨afterInsert t r, executeInsert_ok sscanf input t r hp hw h0 hlt, ?_, ?_, ?_⟩
  · simp only [afterInsert, List.length_set]
  · intro p o hout
    exact byteAt_afterInsert t r p o hw hn hout
  · intro k hk0 hk
    refine ⟨_, readRow_int t k hw hk0 (by omega), ?_⟩
    rw [readRow_int (afterInsert t r) k (afterInsert_wf t r hw hn) hk0 (by omega),
      window_afterInsert_other t r k.toNat hw hn (by omega)]

/-- C18 at the table `dbOpen` returns and the line `insert 1 alice a@x`. -/
theorem insert_frame_witness :
    Reachable freshTable ∧ freshTable.rowCount < (TABLE_MAX_ROWS : Int) ∧
    scanDemo "insert 1 alice a@x" = some alice ∧
    ∃ t', executeInsert scanDemo "insert 1 alice a@x" freshTable = .ok t' ∧
      t'.pages.length = freshTable.pages.length ∧
      (∀ p o, ¬ (p = freshTable.rowCount.toNat / ROWS_PER_PAGE ∧
          freshTable.rowCount.toNat % ROWS_PER_PAGE * ROW_SIZE ≤ o ∧
          o < freshTable.rowCount.toNat % ROWS_PER_PAGE * ROW_SIZE + ROW_SIZE) →
        byteAt t' p o = byteAt freshTable p o) ∧
      (∀ k : Int, 0 ≤ k → k < freshTable.rowCount →
        ∃ row, readRow freshTable k = .ok row ∧ readRow t' k = .ok row) :=
  ⟨Reachable.opened "" freshTable rfl, by decide, by decide,
    insert_frame scanDemo "insert 1 alice a@x" alice freshTable
      (Reachable.opened "" freshTable rfl) (by decide) (by decide)⟩

/-! ## Zero padding -/

theorem take_window (t : Table) (k : Nat) : (window t k).take ROW_SIZE = window t k := by
  rw [window, List.take_take, Nat.min_self]

theorem slot_take (t : Table) (k : Nat) :
    ((pageOf t k).drop (k % ROWS_PER_PAGE * ROW_SIZE)).take ROW_SIZE = window t k := rfl

/-- C20: on a reachable table and for `0 <= i < TABLE_MAX_ROWS`, `rowSlot(i)` is not nil,
its page index `i / ROWS_PER_PAGE` is below the number of pages, the slice has at least
`ROW_SIZE` bytes, and `serializeRow` of any row into that slot and `deserializeRow` from
it return without a panic. -/
theorem slot_access_safe (t : Table) (ht : Reachable t) (i : Int) (h0 : 0 ≤ i)
    (h1 : i < (TABLE_MAX_ROWS : Int)) :
    ∃ s, rowSlot t i = .ok (some s) ∧
      (s.pageNum : Int) = i / (ROWS_PER_PAGE : Int) ∧ s.pageNum < t.pages.length ∧
      ROW_SIZE ≤ s.bytes.length ∧
      (∀ r : Row, ∃ w, serializeRow r (some s.bytes) = .ok w) ∧
      ∃ row, deserializeRow (some s.bytes) = .ok row := by
  obtain ⟨hw, _, _⟩ := reachable_inv t ht
  have hk : i.toNat < TABLE_MAX_ROWS := by omega
  have hlen := (pageOf_get t _ hw hk).2
  have hb := offset_bound i.toNat
  have hv : ROW_SIZE ≤ ((pageOf t i.toNat).drop
      (i.toNat % ROWS_PER_PAGE * ROW_SIZE)).length := by
    rw [List.length_drop, hlen]; omega
  have hpg : i.toNat / ROWS_PER_PAGE < t.pages.length := by
    rw [hw.1]; exact lt_of_le_of_lt (Nat.div_le_self _ _) hk
  refine ⟨_, rowSlot_int t i hw h0 h1, ?_, hpg, hv, fun r => ⟨_, serializeRow_view r _ hv⟩, ?_⟩
  · simp only [ROWS_PER_PAGE_eq]; omega
  · have h4 : 4 ≤ ((pageOf t i.toNat).drop (i.toNat % ROWS_PER_PAGE * ROW_SIZE)).length :=
      le_trans (by decide : 4 ≤ ROW_SIZE) hv
    exact ⟨_, (deserializeRow_view _ hv).trans (decode_ok _ h4)⟩

/-- C20 at row 1399, the last one, of the table `dbOpen` returns. -/
theorem slot_access_safe_witness :
    Reachable freshTable ∧ (0 : Int) ≤ 1399 ∧ (1399 : Int) < (TABLE_MAX_ROWS : Int) ∧
    ∃ s, rowSlot freshTable 1399 = .ok (some s) ∧
      (s.pageNum : Int) = 1399 / (ROWS_PER_PAGE : Int) ∧
      s.pageNum < freshTable.pages.length ∧
      ROW_SIZE ≤ s.bytes.length ∧
      (∀ r : Row, ∃ w, serializeRow r (some s.bytes) = .ok w) ∧
      ∃ row, deserializeRow (some s.bytes) = .ok row :=
  ⟨Reachable.opened "" freshTable rfl, by decide, by decide,
    slot_access_safe freshTable (Reachable.opened "" freshTable rfl) 1399 (by decide)
      (by decide)⟩

/-! ## The loop of `executeSelect`, turn by turn -/

theorem zip_map_self (g : Nat → Row) (l : List Nat) :
    l.zip (l.map g) = l.map fun k => (k, g k) := by
  induction l with
  | nil => rfl
  | cons a l ih => simp only [List.map_cons, List.zip_cons_cons, ih]

theorem selectTurn_lt (t : Table) (j : Nat) (out : List (Nat × Row)) (hw : WellFormed t)
    (hj : (j : Int) < t.rowCount) (hcap : t.rowCount ≤ (TABLE_MAX_ROWS : Int)) :
    selectTurn { table := t, i := (j : Int), out := out }
      = .ok (some (SelectState.mk t ((j + 1 : Nat) : Int)
          (out ++ [(j, rowOf (window t j))]))) := by
  have hk : j < TABLE_MAX_ROWS := by omega
  have hlen := (pageOf_get t j hw hk).2
  have hb := offset_bound j
  have hv : ROW_SIZE ≤ ((pageOf t j).drop (j % ROWS_PER_PAGE * ROW_SIZE)).length := by
    rw [List.length_drop, hlen]; omega
  have h4 : 4 ≤ (window t j).length := by
    rw [length_window t j hw hk]; decide
  have hs := rowSlot_nat t j hw hk
  rw [Int.ofNat_eq_coe] at hs
  have hd : deserializeRow (some ((pageOf t j).drop (j % ROWS_PER_PAGE * ROW_SIZE)))
      = .ok (rowOf (window t j)) :=
    (deserializeRow_view _ hv).trans ((decode_take _).symm.trans (decode_ok _ h4))
  simp only [selectTurn, hj, if_true, hs, bind, Except.bind, Option.map_some', hd, pure,
    Except.pure, Int.toNat_ofNat, Nat.cast_add, Nat.cast_one]

theorem selectTurn_ge (t : Table) (i : Int) (out : List (Nat × Row))
    (hi : t.rowCount ≤ i) :
    selectTurn { table := t, i := i, out := out } = .ok none := by
  have h : ¬ (i < t.rowCount) := not_lt.mpr hi
  simp only [selectTurn, h, if_false]
  rfl

theorem selectLoop_eq (t : Table) (hw : WellFormed t) (h0 : 0 ≤ t.rowCount)
    (hcap : t.rowCount ≤ (TABLE_MAX_ROWS : Int)) :
    ∀ (fuel j : Nat) (out : List (Nat × Row)), j ≤ t.rowCount.toNat →
      t.rowCount.toNat - j < fuel →
      selectLoop fuel { table := t, i := (j : Int), out := out }
        = .ok (some (SelectState.mk t ((t.rowCount.toNat : Nat) : Int)
            (out ++ (List.range' j (t.rowCount.toNat - j)).map
              fun k => (k, rowOf (window t k))))) := by
  intro fuel
  induction fuel with
  | zero => intro j out _ hf; omega
  | succ fuel ih =>
    intro j out hj hf
    by_cases hend : j = t.rowCount.toNat
    · subst hend
      have hge : t.rowCount ≤ ((t.rowCount.toNat : Nat) : Int) := by omega
      simp only [selectLoop, selectTurn_ge t _ out hge, bind, Except.bind, Nat.sub_self,
        List.range'_zero, List.map_nil, List.append_nil]
      rfl
    · have hlt : ((j : Nat) : Int) < t.rowCount := by omega
      have hstep := selectTurn_lt t j out hw hlt hcap
      have hrec := ih (j + 1) (out ++ [(j, rowOf (window t j))]) (by omega) (by omega)
      have hsplit : t.rowCount.toNat - j = (t.rowCount.toNat - (j + 1)) + 1 := by omega
      simp only [selectLoop, hstep, bind, Except.bind, hrec]
      rw [hsplit, List.range'_succ]
      simp only [List.map_cons, List.append_assoc, List.singleton_append]

theorem executeSelectState_eq (t : Table) (fuel : Nat) (hw : WellFormed t)
    (h0 : 0 ≤ t.rowCount) (hcap : t.rowCount ≤ (TABLE_MAX_ROWS : Int))
    (hfuel : t.rowCount.toNat < fuel) :
    executeSelectState fuel t = .ok (some (t,
      (List.range t.rowCount.toNat).map fun k => (k, rowOf (window t k)))) := by
  have key := selectLoop_eq t hw h0 hcap fuel 0 [] (Nat.zero_le _) (by omega)
  simp only [Nat.cast_zero] at key
  simp only [executeSelectState, key, Except.map, Option.map_some', List.nil_append,
    Nat.sub_zero, List.range_eq_range']

/-! ## The rows stored on the way to a table -/

theorem history_reachable (rows : List Row) (t : Table) (h : History rows t) :
    Reachable t := by
  induction h with
  | opened fileName t ht => exact Reachable.opened fileName t ht
  | inserted sscanf input r rows t t' _ _ hstep ih =>
    exact Reachable.inserted sscanf input t t' ih hstep
  | refused sscanf input rows t t' _ _ hstep ih =>
    exact Reachable.inserted sscanf input t t' ih hstep
  | selected rows t out _ hsel ih => exact Reachable.selected t out ih hsel

theorem reachable_history (t : Table) (h : Reachable t) : ∃ rows, History rows t := by
  induction h with
  | opened fileName t ht => exact ⟨[], History.opened fileName t ht⟩
  | inserted sscanf input t t' _ hstep ih =>
    obtain ⟨rows, hrows⟩ := ih
    cases hp : sscanf input with
    | none => exact ⟨rows, History.refused sscanf input rows t t' hrows hp hstep⟩
    | some r => exact ⟨rows ++ [r], History.inserted sscanf input r rows t t' hrows hp hstep⟩
  | selected t out _ hsel ih =>
    obtain ⟨rows, hrows⟩ := ih
    exact ⟨rows, History.selected rows t out hrows hsel⟩

theorem history_stored (rows : List Row) (t : Table) (h : History rows t) :
    t.rowCount = (rows.length : Int) ∧
      ∀ (k : Nat) (r : Row), rows[k]? = some r → window t k = encodeZero r := by
  induction h with
  | opened fileName t ht =>
    rw [dbOpen_eq, Except.ok.injEq] at ht
    subst ht
    refine ⟨rfl, ?_⟩
    intro k r hk
    simp at hk
  | inserted sscanf input r rows t t' hh hp hstep ih =>
    obtain ⟨hrc, hst⟩ := ih
    have hr := history_reachable rows t hh
    obtain ⟨hw, h0, _⟩ := reachable_inv t hr
    by_cases hfull : (TABLE_MAX_ROWS : Int) ≤ t.rowCount
    · rw [executeInsert_nil sscanf input t r hp hfull] at hstep
      cases hstep
    · have hlt : t.rowCount < (TABLE_MAX_ROWS : Int) := lt_of_not_le hfull
      rw [executeInsert_ok sscanf input t r hp hw h0 hlt, Except.ok.injEq] at hstep
      subst hstep
      have hn : t.rowCount.toNat < TABLE_MAX_ROWS := by omega
      have hlen : t.rowCount.toNat = rows.length := by omega
      refine ⟨?_, ?_⟩
      · simp only [afterInsert, List.length_append, List.length_singleton, Nat.cast_add,
          Nat.cast_one, hrc]
      · intro k x hk
        by_cases hkl : k < rows.length
        · rw [List.getElem?_append_left hkl] at hk
          rw [window_afterInsert_other t r k hw hn (by omega)]
          exact hst k x hk
        · rw [List.getElem?_append_right (by omega)] at hk
          have hk0 : k - rows.length = 0 := by
            by_contra hne
            have hpos : 1 ≤ k - rows.length := by omega
            rw [List.getElem?_eq_none (by simpa using hpos)] at hk
            cases hk
          rw [hk0] at hk
          simp only [List.getElem?_cons_zero, Option.some.injEq] at hk
          subst hk
          have hkn : k = t.rowCount.toNat := by omega
          subst hkn
          rw [window_afterInsert_same t r hw hn]
          apply encodeOver_zeros
          rw [take_window]
          exact reachable_zeroTail t hr _ (le_refl _) hn
  | refused sscanf input rows t t' _ hp hstep ih =>
    simp only [executeInsert, hp, Except.ok.injEq] at hstep
    subst hstep
    exact ih
  | selected rows t out _ _ ih => exact ih

theorem encodeZero_fields (r : Row) :
    (encodeZero r).length = ROW_SIZE ∧
    ((encodeZero r).drop 4).take 32
      = r.username.take 32 ++ List.replicate (32 - r.username.length) 0 ∧
    ((encodeZero r).drop 36).take 255
      = r.email.take 255 ++ List.replicate (255 - r.email.length) 0 := by
  have hf : (r.username.take 32 ++ List.replicate (32 - r.username.length) (0 : UInt8)).length
      = 32 := by
    simp only [List.length_append, List.length_take, List.length_replicate]; omega
  have hg : (r.email.take 255 ++ List.replicate (255 - r.email.length) (0 : UInt8)).length
      = 255 := by
    simp only [List.length_append, List.length_take, List.length_replicate]; omega
  obtain ⟨p1, p2, -, -⟩ := fields_of_parts (le32 r.id) _ _ [] (length_le32 r.id) hf hg
  rw [List.append_nil] at p1 p2
  refine ⟨?_, p1, p2⟩
  simp only [encodeZero, List.length_append, hf, hg, length_le32]
  rfl

theorem demoTable_history : History [bob, alice] demoTable := by
  have hw1 : WellFormed (afterInsert freshTable bob) :=
    afterInsert_wf freshTable bob freshTable_wf (by decide)
  have h1 : History ([] ++ [bob]) (afterInsert freshTable bob) :=
    History.inserted (fun _ => some bob) "insert 7 b c" bob [] freshTable _
      (History.opened "" freshTable rfl) rfl
      (executeInsert_ok _ _ freshTable bob rfl freshTable_wf (by decide) (by decide))
  have h2 : History ([] ++ [bob] ++ [alice]) demoTable :=
    History.inserted (fun _ => some alice) "insert 1 alice a@x" alice _ _ _ h1 rfl
      (executeInsert_ok _ _ (afterInsert freshTable bob) alice rfl hw1 (by decide) (by decide))
  exact h2

theorem demoTable_reachable : Reachable demoTable :=
  history_reachable _ _ demoTable_history

/-- C17: on a reachable table `executeSelect`, run with more fuel than `rowCount`, ends
without a panic; the table it leaves has the `rowCount` and the pages of the table it
was called on; a second call on the table the first one left prints the same rows; and
these rows are, for each index `k` below `rowCount` in ascending order, the row
`deserializeRow(rowSlot(k))` returns. -/
theorem select_twice (t : Table) (ht : Reachable t) (fuel : Nat)
    (hfuel : t.rowCount.toNat < fuel) :
    ∃ t1 out1 t2 out2,
      executeSelectState fuel t = .ok (some (t1, out1)) ∧
      executeSelectState fuel t1 = .ok (some (t2, out2)) ∧
      t1.rowCount = t.rowCount ∧ t1.pages = t.pages ∧
      t2.rowCount = t.rowCount ∧ t2.pages = t.pages ∧
      out2 = out1 ∧ executeSelect t = .ok out1 ∧
      out1.map Prod.fst = List.range t.rowCount.toNat ∧
      ∀ k, k < t.rowCount.toNat →
        ∃ row, readRow t (Int.ofNat k) = .ok row ∧ out1[k]? = some (k, row) := by
  obtain ⟨hw, h0, h1⟩ := reachable_inv t ht
  have hrun := executeSelectState_eq t fuel hw h0 h1 hfuel
  have hsel := executeSelect_total t hw h1
  rw [zip_map_self] at hsel
  refine ⟨t, _, t, _, hrun, hrun, rfl, rfl, rfl, rfl, rfl, hsel, ?_, ?_⟩
  · rw [List.map_map]
    exact List.map_id _
  · intro k hk
    refine ⟨_, readRow_eq t k hw (by omega), ?_⟩
    rw [List.getElem?_map, List.getElem?_range hk]
    rfl

/-- C17 at the table that holds the rows `bob` and `alice`, with fuel 3. -/
theorem select_twice_witness :
    Reachable demoTable ∧ demoTable.rowCount.toNat < 3 ∧
    ∃ t1 out1 t2 out2,
      executeSelectState 3 demoTable = .ok (some (t1, out1)) ∧
      executeSelectState 3 t1 = .ok (some (t2, out2)) ∧
      t1.rowCount = demoTable.rowCount ∧ t1.pages = demoTable.pages ∧
      t2.rowCount = demoTable.rowCount ∧ t2.pages = demoTable.pages ∧
      out2 = out1 ∧ executeSelect demoTable = .ok out1 ∧
      out1.map Prod.fst = List.range demoTable.rowCount.toNat ∧
      ∀ k, k < demoTable.rowCount.toNat →
        ∃ row, readRow demoTable (Int.ofNat k) = .ok row ∧ out1[k]? = some (k, row) :=
  ⟨demoTable_reachable, by decide, select_twice demoTable demoTable_reachable 3 (by decide)⟩

/-- C19: in every reachable table, every slot with index `i` in
`[rowCount, TABLE_MAX_ROWS)` is zero in all its `ROW_SIZE` bytes, so `serializeRow` of
any row into it leaves the id, each text (cut to the field width) and zero bytes up to
the field width; and for the rows stored on the way to the table, of which there are
`rowCount`, slot `k` holds the `k`-th row stored in that form: in its username field the
first 32 bytes of the username and then zero bytes, in its email field the first 255
bytes of the email and then zero bytes. -/
theorem unused_slots_zero (t : Table) (ht : Reachable t) :
    (∀ i : Int, t.rowCount ≤ i → i < (TABLE_MAX_ROWS : Int) →
      ∃ s, rowSlot t i = .ok (some s) ∧ ROW_SIZE ≤ s.bytes.length ∧
        s.bytes.take ROW_SIZE = List.replicate ROW_SIZE 0 ∧
        ∀ r : Row, ∃ w, serializeRow r (some s.bytes) = .ok w ∧
          w.take ROW_SIZE = encodeZero r) ∧
    (∃ rows, History rows t) ∧
    (∀ rows, History rows t → t.rowCount = (rows.length : Int) ∧
      ∀ (k : Nat) (r : Row), rows[k]? = some r →
        ∃ s, rowSlot t (Int.ofNat k) = .ok (some s) ∧
          s.bytes.take ROW_SIZE = encodeZero r ∧
          (s.bytes.drop USERNAME_OFFSET).take USERNAME_SIZE
            = r.username.take USERNAME_SIZE
              ++ List.replicate (USERNAME_SIZE - r.username.length) 0 ∧
          (s.bytes.drop EMAIL_OFFSET).take EMAIL_SIZE
            = r.email.take EMAIL_SIZE ++ List.replicate (EMAIL_SIZE - r.email.length) 0) := by
  obtain ⟨hw, h0, h1⟩ := reachable_inv t ht
  refine ⟨?_, reachable_history t ht, ?_⟩
  · intro i hi hlt
    have hk : i.toNat < TABLE_MAX_ROWS := by omega
    have hlen := (pageOf_get t _ hw hk).2
    have hb := offset_bound i.toNat
    have hv : ROW_SIZE ≤ ((pageOf t i.toNat).drop
        (i.toNat % ROWS_PER_PAGE * ROW_SIZE)).length := by
      rw [List.length_drop, hlen]; omega
    have hz : ((pageOf t i.toNat).drop (i.toNat % ROWS_PER_PAGE * ROW_SIZE)).take ROW_SIZE
        = List.replicate ROW_SIZE 0 := by
      rw [slot_take]
      exact reachable_zeroTail t ht _ (by omega) hk
    refine ⟨_, rowSlot_int t i hw (by omega) hlt, hv, hz, ?_⟩
    intro r
    refine ⟨_, serializeRow_view r _ hv, ?_⟩
    rw [List.take_left' (length_encodeOver r _ hv)]
    exact encodeOver_zeros r _ hz
  · intro rows hrows
    obtain ⟨hrc, hst⟩ := history_stored rows t hrows
    refine ⟨hrc, ?_⟩
    intro k r hk
    have hkl : k < rows.length := by
      by_contra hge
      rw [List.getElem?_eq_none (by omega)] at hk
      cases hk
    have hkn : k < TABLE_MAX_ROWS := by omega
    have hwin := hst k r hk
    obtain ⟨-, f1, f2⟩ := encodeZero_fields r
    have e1 : (((pageOf t k).drop (k % ROWS_PER_PAGE * ROW_SIZE)).drop 4).take 32
        = ((window t k).drop 4).take 32 := by
      rw [window, ROW_SIZE_eq, List.drop_take, List.take_take]; rfl
    have e2 : (((pageOf t k).drop (k % ROWS_PER_PAGE * ROW_SIZE)).drop 36).take 255
        = ((window t k).drop 36).take 255 := by
      rw [window, ROW_SIZE_eq, List.drop_take, List.take_take]; rfl
    refine ⟨_, rowSlot_nat t k hw hkn, ?_, ?_, ?_⟩
    · rw [slot_take]; exact hwin
    · exact e1.trans (by rw [hwin]; exact f1)
    · exact e2.trans (by rw [hwin]; exact f2)

/-- C19 at the table that holds the rows `bob` and `alice`. -/
theorem unused_slots_zero_witness :
    Reachable demoTable ∧
    (∀ i : Int, demoTable.rowCount ≤ i → i < (TABLE_MAX_ROWS : Int) →
      ∃ s, rowSlot demoTable i = .ok (some s) ∧ ROW_SIZE ≤ s.bytes.length ∧
        s.bytes.take ROW_SIZE = List.replicate ROW_SIZE 0 ∧
        ∀ r : Row, ∃ w, serializeRow r (some s.bytes) = .ok w ∧
          w.take ROW_SIZE = encodeZero r) ∧
    (∃ rows, History rows demoTable) ∧
    (∀ rows, History rows demoTable → demoTable.rowCount = (rows.length : Int) ∧
      ∀ (k : Nat) (r : Row), rows[k]? = some r →
        ∃ s, rowSlot demoTable (Int.ofNat k) = .ok (some s) ∧
          s.bytes.take ROW_SIZE = encodeZero r ∧
          (s.bytes.drop USERNAME_OFFSET).take USERNAME_SIZE
            = r.username.take USERNAME_SIZE
              ++ List.replicate (USERNAME_SIZE - r.username.length) 0 ∧
          (s.bytes.drop EMAIL_OFFSET).take EMAIL_SIZE
            = r.email.take EMAIL_SIZE ++ List.replicate (EMAIL_SIZE - r.email.length) 0) :=
  ⟨demoTable_reachable, unused_slots_zero demoTable demoTable_reachable⟩

end SimpleDb
